import Mathlib

/-!
Verification of the `localit` storage wrapper (src/index.ts).

The library layers domain-prefixed keys and lazy expiration over a
synchronous string-keyed storage backend (`localStorage`/`sessionStorage`).
We embed the source shallowly:

* the backend `Storage` object is an association list from key strings to
  value strings;
* the host's `JSON.stringify` / `JSON.parse` builtins are modelled by an
  executable printer and recursive-descent parser over a `JSVal` type of
  JSON values. Numbers are modelled as exact decimals `m / 10 ^ e` (every
  finite JS double has a finite decimal expansion); the parser implements
  the full JSON number grammar (optional sign, integer part without
  leading zeros, optional fraction and exponent) and normalises the token
  to the canonical pair with no trailing fractional zeros, the unique
  representation the printer emits. The idealization is exactness: IEEE
  rounding to 64-bit doubles, negative zero, the `TimeClip` range check
  and the exponent notation JS uses for very large/small magnitudes are
  outside the model, which computes in exact decimal arithmetic;
* the JS `Number(string)` conversion used by `setExpiration` is modelled by
  `jsNumberOfString`, following the ECMAScript StringNumericLiteral grammar
  (whitespace trimming, empty string is 0, signed decimal with fraction and
  exponent, Infinity, hex/octal/binary literals);
* the current time (`new Date()`) is passed in explicitly as an integer
  count of milliseconds (`now`); the calendar arithmetic of
  `setHours`/`setDate` etc. is modelled as fixed-length unit offsets in
  milliseconds.
-/

/-- JSON-serializable JS values. A number `num m e` denotes the exact
decimal `m / 10 ^ e`; each JS number has the unique canonical
representation with `e = 0` or `m` not divisible by ten (`canonV`). -/
inductive JSVal where
  | null : JSVal
  | bool : Bool → JSVal
  | num : Int → Nat → JSVal
  | str : String → JSVal
  | arr : List JSVal → JSVal
  | obj : List (String × JSVal) → JSVal

/-- The decimal digit character for `d < 10`. -/
def digitChar (d : Nat) : Char := Char.ofNat (48 + d)

/-- Decimal digits, least significant first, with explicit fuel (the fuel
is only a termination device: any fuel at least the value itself gives the
same result). -/
def digitsRevAux : Nat → Nat → List Char
  | _, 0 => []
  | 0, _ + 1 => []
  | fuel + 1, n + 1 => digitChar ((n + 1) % 10) :: digitsRevAux fuel ((n + 1) / 10)

/-- Decimal digits of `n`, least significant first (empty for 0). -/
def digitsRev (n : Nat) : List Char := digitsRevAux n n

/-- Decimal representation of a natural number, as JS prints it. -/
def natChars : Nat → List Char
  | 0 => ['0']
  | m + 1 => (digitsRev (m + 1)).reverse

/-- Decimal representation of an integer, as JS `String(number)` prints
integral numbers. -/
def intChars (i : Int) : List Char :=
  if i < 0 then '-' :: natChars i.natAbs else natChars i.natAbs

/-- The digits of `n` left-padded with zeros to at least `e + 1` places,
so that a decimal point can be inserted `e` places from the right. -/
def padDigits (n e : Nat) : List Char :=
  List.replicate (e + 1 - (natChars n).length) '0' ++ natChars n

/-- Positional decimal notation for the non-negative value `n / 10 ^ e`
with `e > 0` places after the point, as JS prints finite fractional
numbers of moderate magnitude (`0.5`, `12.25`). -/
def decPad (n e : Nat) : List Char :=
  (padDigits n e).take ((padDigits n e).length - e) ++
    '.' :: (padDigits n e).drop ((padDigits n e).length - e)

/-- Decimal representation of `m / 10 ^ e`, as JS `String(number)` and
`JSON.stringify` print it (in the exact-decimal model, always positional
notation). -/
def decChars (m : Int) (e : Nat) : List Char :=
  if e = 0 then intChars m
  else if m < 0 then '-' :: decPad m.natAbs e else decPad m.natAbs e

/-- Accumulating decimal value of a digit string (parser side). -/
def natOfDigits (acc : Nat) : List Char → Nat
  | [] => acc
  | c :: cs => natOfDigits (acc * 10 + (c.toNat - 48)) cs

/-- Lower-case hexadecimal digit for `d < 16`, as JS prints `\u00XX`. -/
def hexDigit (d : Nat) : Char :=
  if d < 10 then Char.ofNat (48 + d) else Char.ofNat (87 + d)

/-- Value of a hexadecimal digit character, if it is one. -/
def hexVal? (c : Char) : Option Nat :=
  if 48 ≤ c.toNat ∧ c.toNat ≤ 57 then some (c.toNat - 48)
  else if 97 ≤ c.toNat ∧ c.toNat ≤ 102 then some (c.toNat - 87)
  else if 65 ≤ c.toNat ∧ c.toNat ≤ 70 then some (c.toNat - 55)
  else none

/-- How `JSON.stringify` escapes one character inside a string literal. -/
def escapeChar (c : Char) : List Char :=
  if c = '"' then ['\\', '"']
  else if c = '\\' then ['\\', '\\']
  else if c.toNat = 8 then ['\\', 'b']
  else if c.toNat = 9 then ['\\', 't']
  else if c.toNat = 10 then ['\\', 'n']
  else if c.toNat = 12 then ['\\', 'f']
  else if c.toNat = 13 then ['\\', 'r']
  else if c.toNat < 32 then
    ['\\', 'u', '0', '0', hexDigit (c.toNat / 16), hexDigit (c.toNat % 16)]
  else [c]

/-- Escaped body of a JSON string literal. -/
def escapeBody : List Char → List Char
  | [] => []
  | c :: cs => escapeChar c ++ escapeBody cs

mutual

/-- Character stream produced by `JSON.stringify` (no whitespace). -/
def stringifyChars : JSVal → List Char
  | .null => "null".data
  | .bool true => "true".data
  | .bool false => "false".data
  | .num m e => decChars m e
  | .str s => '"' :: (escapeBody s.data ++ ['"'])
  | .arr vs => '[' :: (stringifyElemsChars vs ++ [']'])
  | .obj ms => '{' :: (stringifyMembersChars ms ++ ['}'])

/-- Comma-separated array elements. -/
def stringifyElemsChars : List JSVal → List Char
  | [] => []
  | v :: vs => stringifyChars v ++ stringifyRestChars vs

/-- Remaining array elements, each preceded by a comma. -/
def stringifyRestChars : List JSVal → List Char
  | [] => []
  | v :: vs => ',' :: (stringifyChars v ++ stringifyRestChars vs)

/-- Comma-separated object members. -/
def stringifyMembersChars : List (String × JSVal) → List Char
  | [] => []
  | (key, w) :: ms =>
    ('"' :: (escapeBody key.data ++ '"' :: ':' :: stringifyChars w)) ++
      stringifyMembersRestChars ms

/-- Remaining object members, each preceded by a comma. -/
def stringifyMembersRestChars : List (String × JSVal) → List Char
  | [] => []
  | (key, w) :: ms =>
    ',' :: (('"' :: (escapeBody key.data ++ '"' :: ':' :: stringifyChars w)) ++
      stringifyMembersRestChars ms)

end

namespace JSON

/-- Model of the host `JSON.stringify` builtin. -/
def stringify (v : JSVal) : String := String.mk (stringifyChars v)

end JSON

/-- JSON whitespace accepted between tokens by `JSON.parse`. -/
def isJsonWs (c : Char) : Bool :=
  c.toNat == 32 || c.toNat == 9 || c.toNat == 10 || c.toNat == 13

/-- Skip JSON whitespace. -/
def skipWs (cs : List Char) : List Char := cs.dropWhile isJsonWs

/-- Escape characters accepted after a backslash in a JSON string. -/
def unescape? (c : Char) : Option Char :=
  if c = '"' then some '"'
  else if c = '\\' then some '\\'
  else if c = '/' then some '/'
  else if c = 'b' then some (Char.ofNat 8)
  else if c = 'f' then some (Char.ofNat 12)
  else if c = 'n' then some '\n'
  else if c = 'r' then some '\r'
  else if c = 't' then some '\t'
  else none

/-- Read four hexadecimal digits. -/
def readHex4 : List Char → Option (Nat × List Char)
  | h1 :: h2 :: h3 :: h4 :: rest =>
    match hexVal? h1, hexVal? h2, hexVal? h3, hexVal? h4 with
    | some a, some b, some d1, some d2 => some (((a * 16 + b) * 16 + d1) * 16 + d2, rest)
    | _, _, _, _ => none
  | _ => none

/-- Decode one escape sequence (the input starts after the backslash). -/
def readEscape : List Char → Option (Option Char × List Char)
  | [] => none
  | e :: cs1 =>
    if e = 'u' then
      match readHex4 cs1 with
      | some (code, cs2) => some (some (Char.ofNat code), cs2)
      | none => none
    else
      match unescape? e with
      | some c1 => some (some c1, cs1)
      | none => none

/-- Scan one item of a JSON string literal body: the closing quote
(`some (none, rest)`), one decoded character (`some (some c, rest)`), or a
parse error (`none`). Raw control characters are a parse error. -/
def readStringItem : List Char → Option (Option Char × List Char)
  | [] => none
  | c :: cs =>
    if c = '"' then some (none, cs)
    else if c = '\\' then readEscape cs
    else if c.toNat < 32 then none
    else some (some c, cs)

/-- Parse the body of a JSON string literal after the opening quote, up to
and including the closing quote; returns the decoded characters and the
remaining input. The first argument is fuel: every step consumes at least
one character, so any amount exceeding the input length behaves like the
untimed parser (callers pass length + 1). -/
def parseStringBody : Nat → List Char → Option (List Char × List Char)
  | 0, _ => none
  | n + 1, cs =>
    match readStringItem cs with
    | some (none, rest) => some ([], rest)
    | some (some c, rest) =>
      match parseStringBody n rest with
      | some (s, r) => some (c :: s, r)
      | none => none
    | none => none

/-- Parse the integer-part digit run of a JSON number, enforcing the
grammar's no-leading-zero rule (either the single digit `0` or a run
beginning with a nonzero digit). -/
def parseIntDigits : List Char → Option (List Char × List Char)
  | [] => none
  | c :: cs =>
    if c = '0' then
      match cs with
      | c2 :: _ => if c2.isDigit then none else some (['0'], cs)
      | [] => some (['0'], [])
    else if c.isDigit then
      some (c :: cs.takeWhile Char.isDigit, cs.dropWhile Char.isDigit)
    else none

/-- Parse an optional JSON fraction part: a dot must be followed by at
least one digit, and an absent dot yields the empty digit run. -/
def parseFracPart : List Char → Option (List Char × List Char)
  | [] => some ([], [])
  | c :: cs =>
    if c = '.' then
      if cs.takeWhile Char.isDigit = [] then none
      else some (cs.takeWhile Char.isDigit, cs.dropWhile Char.isDigit)
    else some ([], c :: cs)

/-- Parse an optional JSON exponent part (`e`/`E`, optional sign, at
least one digit), as a signed power of ten. -/
def parseExpPart : List Char → Option (Int × List Char)
  | [] => some (0, [])
  | c :: cs =>
    if c = 'e' ∨ c = 'E' then
      match cs with
      | [] => none
      | c2 :: cs2 =>
        let p := if c2 = '+' then (true, cs2)
          else if c2 = '-' then (false, cs2) else (true, c2 :: cs2)
        if p.2.takeWhile Char.isDigit = [] then none
        else
          some ((if p.1 then (natOfDigits 0 (p.2.takeWhile Char.isDigit) : Int)
              else -(natOfDigits 0 (p.2.takeWhile Char.isDigit) : Int)),
            p.2.dropWhile Char.isDigit)
    else some (0, c :: cs)

/-- Divide factors of ten out of the mantissa while the scale is
positive, normalising away trailing fractional zeros. -/
def stripZeros : Nat → Nat → Nat × Nat
  | n, 0 => (n, 0)
  | n, s + 1 => if n % 10 = 0 then stripZeros (n / 10) s else (n, s + 1)

/-- Apply an optional sign to an integer. -/
def condNeg (neg : Bool) (m : Int) : Int := if neg then -m else m

/-- Combine sign, mantissa, fraction length and exponent into the
canonical exact-decimal pair denoting `(-1)^neg * mag * 10 ^ (x - f)`. -/
def mkDec (neg : Bool) (mag f : Nat) (x : Int) : Int × Nat :=
  if (f : Int) - x ≤ 0 then
    (condNeg neg ((mag : Int) * 10 ^ (x - (f : Int)).toNat), 0)
  else
    (condNeg neg ((stripZeros mag ((f : Int) - x).toNat).1 : Int),
      (stripZeros mag ((f : Int) - x).toNat).2)

/-- Parse the body of a JSON number token after an optional leading
minus sign: integer part, optional fraction, optional exponent. -/
def parseUnsignedNum (neg : Bool) (cs : List Char) : Option (JSVal × List Char) :=
  match parseIntDigits cs with
  | none => none
  | some (ids, r1) =>
    match parseFracPart r1 with
    | none => none
    | some (fds, r2) =>
      match parseExpPart r2 with
      | none => none
      | some (x, r3) =>
        some (.num (mkDec neg (natOfDigits 0 (ids ++ fds)) fds.length x).1
          (mkDec neg (natOfDigits 0 (ids ++ fds)) fds.length x).2, r3)

/-- Parse a JSON number token into the canonical exact-decimal value. -/
def parseNumTok (cs : List Char) : Option (JSVal × List Char) :=
  match cs with
  | [] => none
  | c :: cs1 =>
    if c = '-' then parseUnsignedNum true cs1 else parseUnsignedNum false (c :: cs1)

mutual

/-- Fuel-indexed recursive-descent parser for one JSON value. -/
def parseVal : Nat → List Char → Option (JSVal × List Char)
  | 0, _ => none
  | n + 1, cs =>
    let t := skipWs cs
    if List.isPrefixOf ['n', 'u', 'l', 'l'] t then some (.null, t.drop 4)
    else if List.isPrefixOf ['t', 'r', 'u', 'e'] t then some (.bool true, t.drop 4)
    else if List.isPrefixOf ['f', 'a', 'l', 's', 'e'] t then some (.bool false, t.drop 5)
    else
      match t with
      | [] => none
      | c :: t1 =>
        if c = '"' then
          match parseStringBody (t1.length + 1) t1 with
          | some (s, r) => some (.str (String.mk s), r)
          | none => none
        else if c = '[' then
          match skipWs t1 with
          | [] => none
          | c2 :: t2 =>
            if c2 = ']' then some (.arr [], t2)
            else
              match parseElems n (c2 :: t2) with
              | some (vs, r) => some (.arr vs, r)
              | none => none
        else if c = '{' then
          match skipWs t1 with
          | [] => none
          | c2 :: t2 =>
            if c2 = '}' then some (.obj [], t2)
            else
              match parseMembers n (c2 :: t2) with
              | some (ms, r) => some (.obj ms, r)
              | none => none
        else parseNumTok (c :: t1)

/-- Parse the elements of a non-empty JSON array, consuming the closing
bracket. -/
def parseElems : Nat → List Char → Option (List JSVal × List Char)
  | 0, _ => none
  | n + 1, cs =>
    match parseVal n cs with
    | some (v, r) =>
      match skipWs r with
      | [] => none
      | c :: r1 =>
        if c = ',' then
          match parseElems n r1 with
          | some (vs, r2) => some (v :: vs, r2)
          | none => none
        else if c = ']' then some ([v], r1)
        else none
    | none => none

/-- Parse the members of a non-empty JSON object, consuming the closing
brace. -/
def parseMembers : Nat → List Char → Option (List (String × JSVal) × List Char)
  | 0, _ => none
  | n + 1, cs =>
    match skipWs cs with
    | [] => none
    | c :: t1 =>
      if c = '"' then
        match parseStringBody (t1.length + 1) t1 with
        | some (k, r1) =>
          match skipWs r1 with
          | [] => none
          | c2 :: r2 =>
            if c2 = ':' then
              match parseVal n r2 with
              | some (v, r3) =>
                match skipWs r3 with
                | [] => none
                | c3 :: r4 =>
                  if c3 = ',' then
                    match parseMembers n r4 with
                    | some (ms, r5) => some ((String.mk k, v) :: ms, r5)
                    | none => none
                  else if c3 = '}' then some ([(String.mk k, v)], r4)
                  else none
              | none => none
            else none
        | none => none
      else none

end

namespace JSON

/-- Model of the host `JSON.parse` builtin: `none` models a thrown
`SyntaxError`. The whole input (up to trailing whitespace) must be
consumed. -/
def parse (s : String) : Option JSVal :=
  match parseVal (s.data.length + 1) s.data with
  | some (v, r) => if skipWs r = [] then some v else none
  | none => none

end JSON

/-- Result of the JS `Number(string)` conversion: NaN, a signed infinity,
or a finite value. A finite value is kept as an exact unreduced fraction
`num / den` (`den` positive); only its truncation to milliseconds is ever
observed. -/
inductive JSNumber where
  | nan : JSNumber
  | inf : Bool → JSNumber
  | val : Int → Nat → JSNumber

/-- The `isNaN` test on a conversion result. -/
def JSNumber.isNaN : JSNumber → Bool
  | .nan => true
  | _ => false

/-- Unary minus on a conversion result. -/
def jsNeg : JSNumber → JSNumber
  | .nan => .nan
  | .inf b => .inf !b
  | .val n d => .val (-n) d

/-- JS StrWhiteSpaceChar (the common cases). -/
def isJsWs (c : Char) : Bool :=
  c == ' ' || c == '\t' || c == '\n' || c == '\r' ||
    c.toNat == 11 || c.toNat == 12 || c.toNat == 160 || c.toNat == 65279

/-- Trim leading and trailing JS whitespace. -/
def trimJsWs (cs : List Char) : List Char :=
  ((cs.dropWhile isJsWs).reverse.dropWhile isJsWs).reverse

/-- Value denoted by decimal integer and fraction digit strings, as an
exact fraction. -/
def ratOfDigits (intPart fracPart : List Char) : JSNumber :=
  .val ((natOfDigits 0 intPart : Int) * 10 ^ fracPart.length + (natOfDigits 0 fracPart : Int))
    (10 ^ fracPart.length)

/-- Apply an ExponentPart (the input starts after `e`/`E`) to a finite
value. -/
def applyExp (v : JSNumber) (cs : List Char) : JSNumber :=
  match cs with
  | [] => .nan
  | c :: cs1 =>
    let p := if c = '+' then (true, cs1) else if c = '-' then (false, cs1) else (true, c :: cs1)
    if p.2 ≠ [] ∧ p.2.all Char.isDigit then
      match v with
      | .val n d =>
        if p.1 then .val (n * 10 ^ natOfDigits 0 p.2) d else .val n (d * 10 ^ natOfDigits 0 p.2)
      | w => w
    else .nan

/-- Parse a StrUnsignedDecimalLiteral occupying the whole input. -/
def parseUnsignedDec (cs : List Char) : JSNumber :=
  if cs = ['I', 'n', 'f', 'i', 'n', 'i', 't', 'y'] then .inf true
  else
    let intPart := cs.takeWhile Char.isDigit
    let r1 := cs.dropWhile Char.isDigit
    match r1 with
    | [] => if intPart = [] then .nan else .val (natOfDigits 0 intPart : Int) 1
    | c :: r2 =>
      if c = '.' then
        let fracPart := r2.takeWhile Char.isDigit
        let r3 := r2.dropWhile Char.isDigit
        if intPart = [] ∧ fracPart = [] then .nan
        else
          match r3 with
          | [] => ratOfDigits intPart fracPart
          | e :: r4 =>
            if e = 'e' ∨ e = 'E' then applyExp (ratOfDigits intPart fracPart) r4 else .nan
      else if c = 'e' ∨ c = 'E' then
        if intPart = [] then .nan else applyExp (.val (natOfDigits 0 intPart : Int) 1) r2
      else .nan

/-- Value of a digit character in the given radix, if valid. -/
def radixVal? (radix : Nat) (c : Char) : Option Nat :=
  match hexVal? c with
  | some v => if v < radix then some v else none
  | none => none

/-- Parse a non-decimal (hex/octal/binary) integer literal body. -/
def parseRadix (radix : Nat) (cs : List Char) : JSNumber :=
  if cs ≠ [] ∧ cs.all (fun c => (radixVal? radix c).isSome) then
    .val ((cs.foldl (fun acc c => acc * radix + (radixVal? radix c).getD 0) 0 : Nat) : Int) 1
  else .nan

/-- Model of the JS `Number(string)` conversion (ECMAScript
StringNumericLiteral). -/
def jsNumberOfString (s : String) : JSNumber :=
  let t := trimJsWs s.data
  if t = [] then .val 0 1
  else if t.take 2 = ['0', 'x'] ∨ t.take 2 = ['0', 'X'] then parseRadix 16 (t.drop 2)
  else if t.take 2 = ['0', 'o'] ∨ t.take 2 = ['0', 'O'] then parseRadix 8 (t.drop 2)
  else if t.take 2 = ['0', 'b'] ∨ t.take 2 = ['0', 'B'] then parseRadix 2 (t.drop 2)
  else
    match t with
    | [] => .val 0 1
    | c :: t1 =>
      if c = '+' then parseUnsignedDec t1
      else if c = '-' then jsNeg (parseUnsignedDec t1)
      else parseUnsignedDec t

/-- Remove the first occurrence of a character, as the JS
`string.replace(oneCharString, "")` used by `setExpiration` does. -/
def removeFirstChar : List Char → Char → List Char
  | [], _ => []
  | c :: cs, x => if c = x then cs else c :: removeFirstChar cs x

/-- Milliseconds per expiration unit. The source adds the amount to the
current `Date` via `setSeconds`/`setMinutes`/`setHours`/`setDate`; this is
modelled as a fixed-length offset in milliseconds. -/
def unitMillis (c : Char) : Int :=
  if c = 's' then 1000 else if c = 'm' then 60000 else if c = 'h' then 3600000 else 86400000

/-- The string stored under the Expiration Key:
`JSON.stringify(timeFormats[timeKey](time))`, i.e. the stringified numeric
time value of the shifted date (truncated toward zero, as the `Date` time
value clipping does). A non-finite amount yields an invalid date, which
stringifies to "null". -/
def expirationValueString (now : Int) (unit : Char) : JSNumber → String
  | .val n d => String.mk (intChars (now + Int.tdiv (n * unitMillis unit) (d : Int)))
  | _ => "null"

/-- The backend `Storage` collaborator: a flat association list from key
strings to value strings. -/
def Storage := List (String × String)

namespace Storage

/-- Backend `getItem`: `none` models the JS `null` result. -/
def getItem (st : Storage) (k : String) : Option String :=
  (List.find? (fun p => p.1 == k) st).map Prod.snd

/-- Backend `setItem`. -/
def setItem (st : Storage) (k v : String) : Storage :=
  (k, v) :: List.filter (fun p => !(p.1 == k)) st

/-- Backend `removeItem`. -/
def removeItem (st : Storage) (k : String) : Storage :=
  List.filter (fun p => !(p.1 == k)) st

/-- Backend `clear`. -/
def clear (_ : Storage) : Storage := []

end Storage

/-- The process-wide mutable state of the component: the current domain,
which backend is selected, and the contents of both backends. -/
structure LocalitState where
  DOMAIN : String
  storeIsLocal : Bool
  localStorage : Storage
  sessionStorage : Storage

/-- The currently selected backend (`store` in the source). -/
def activeStore (st : LocalitState) : Storage :=
  if st.storeIsLocal then st.localStorage else st.sessionStorage

/-- Write back the currently selected backend. -/
def setActiveStore (st : LocalitState) (s : Storage) : LocalitState :=
  if st.storeIsLocal then { st with localStorage := s } else { st with sessionStorage := s }

/-- Key-derivation: `` `${DOMAIN}_${key}` ``. -/
def getFullKey (domain key : String) : String := domain ++ "_" ++ key

/-- The `EXPIRE` suffix constant. -/
def EXPIRE : String := "_expiration_date"

/-- Key-derivation: `` `${getFullKey(key)}${EXPIRE}` ``. -/
def getExpirationKey (domain key : String) : String := getFullKey domain key ++ EXPIRE

/-- The `typeof value === "object"` test: true for null, arrays and objects. -/
def typeofObject : JSVal → Bool
  | .null => true
  | .arr _ => true
  | .obj _ => true
  | _ => false

/-- The string a value is stored as: objects (and null/arrays) are
JSON-stringified by `set`; primitives are coerced by `setItem` to their
native string form. -/
def toStorageString (v : JSVal) : String :=
  if typeofObject v then JSON.stringify v
  else
    match v with
    | .str s => s
    | .num m e => String.mk (decChars m e)
    | .bool b => if b then "true" else "false"
    | v' => JSON.stringify v'

/-- Source `setExpiration(key, expirationTime)`: validates the
expiration spec and, on success, writes the shifted absolute time under
the Expiration Key. On failure it only logs a warning, modelled as
returning the state unchanged. -/
def setExpiration (now : Int) (st : LocalitState) (key expirationTime : String) : LocalitState :=
  match expirationTime.data.getLast? with
  | none => st
  | some timeKey =>
    let time := jsNumberOfString (String.mk (removeFirstChar expirationTime.data timeKey))
    if expirationTime.data.length < 2 ∨ (timeKey ∉ ['h', 'd', 'm', 's']) ∨ time.isNaN then st
    else
      setActiveStore st
        (Storage.setItem (activeStore st) (getExpirationKey st.DOMAIN key)
          (expirationValueString now timeKey time))

/-- Source `hasExpirationDate(key)`. -/
def hasExpirationDate (st : LocalitState) (key : String) : Bool :=
  (Storage.getItem (activeStore st) (getExpirationKey st.DOMAIN key)).isSome

/-- The time value of `new Date(x)` for a deserialized expiration entry,
in milliseconds; `none` models an Invalid Date, all of whose comparisons
are false. `null` and booleans go through `ToNumber` (the epoch, 0/1); a
number is truncated toward zero by the `Date` time-value conversion (its
`TimeClip` range check is idealized away, as in the rest of the number
model). A string goes through the implementation-defined date-string
parse and arrays/objects are first coerced to strings by `ToPrimitive`;
that parse is not specified for the non-ISO strings reachable here and
is modelled as Invalid (the library itself only writes numbers or `null`
into expiration entries). -/
def dateMs : JSVal → Option Int
  | .null => some 0
  | .bool b => some (if b then 1 else 0)
  | .num m e => some (Int.tdiv m ((10 : Int) ^ e))
  | .str _ => none
  | .arr _ => none
  | .obj _ => none

/-- Source `hasExpired(key)`: deserializes the Expiration Key entry with
`JSON.parse` — outside any try/catch, so an unparseable entry throws, and
the exception escapes the caller: `none` models that. A missing entry
deserializes to `null` (`JSON.parse(null)` parses the string "null"), so
the comparison `new Date() > new Date(null)` is `now > 0` (the source
only calls this under `hasExpirationDate`). Otherwise the parsed value is
coerced by `new Date` (see `dateMs`) and compared with `now`; an Invalid
Date compares false. -/
def hasExpired (now : Int) (st : LocalitState) (key : String) : Option Bool :=
  match (match Storage.getItem (activeStore st) (getExpirationKey st.DOMAIN key) with
         | none => JSON.parse "null"
         | some s => JSON.parse s) with
  | none => none
  | some v =>
    match dateMs v with
    | some t => some (decide (now > t))
    | none => some false

/-- Whether `needle` occurs as a contiguous substring of the second list. -/
def includesChars (needle : List Char) : List Char → Bool
  | [] => needle.isEmpty
  | c :: cs => List.isPrefixOf needle (c :: cs) || includesChars needle cs

namespace localit

/-- Source `config` with options `domain` and `type`. -/
def config (st : LocalitState) (domain : Option String) (type : Option String) : LocalitState :=
  { st with
    storeIsLocal := (type.getD "localStorage") == "localStorage"
    DOMAIN := domain.getD "" }

/-- Source `set(key, value, expirationTime?)`. An empty (falsy)
key aborts with no write; objects are JSON-stringified; a truthy
expiration spec additionally invokes `setExpiration`. -/
def set (now : Int) (st : LocalitState) (key : String) (value : JSVal)
    (expirationTime : Option String) : LocalitState :=
  if key = "" then st
  else
    let st1 :=
      setActiveStore st
        (Storage.setItem (activeStore st) (getFullKey st.DOMAIN key) (toStorageString value))
    match expirationTime with
    | none => st1
    | some e => if e = "" then st1 else setExpiration now st1 key e

/-- Source `remove(key)`: deletes the Full Key and the Expiration
Key unconditionally. -/
def remove (st : LocalitState) (key : String) : LocalitState :=
  setActiveStore st
    (Storage.removeItem
      (Storage.removeItem (activeStore st) (getFullKey st.DOMAIN key))
      (getExpirationKey st.DOMAIN key))

/-- Source `get(key)`: expired entries are removed and read as
`null`; otherwise the raw string is `JSON.parse`d inside a try/catch,
falling back to the raw string itself when parsing throws; a missing key
reads as `null`. Returns the read value together with the (possibly
updated) state. The expiry test `hasExpirationDate(key) && hasExpired(key)`
short-circuits, and `hasExpired`'s own `JSON.parse` sits outside the
try/catch, so a present but unparseable expiration entry makes `get`
itself throw before touching the backend: `none` models that escaping
exception. -/
def get (now : Int) (st : LocalitState) (key : String) : Option (JSVal × LocalitState) :=
  match (if hasExpirationDate st key then hasExpired now st key else some false) with
  | none => none
  | some true => some (JSVal.null, remove st key)
  | some false =>
    some (match Storage.getItem (activeStore st) (getFullKey st.DOMAIN key) with
      | none => (JSVal.null, st)
      | some raw =>
        match JSON.parse raw with
        | some v => (v, st)
        | none => (JSVal.str raw, st))

/-- Source `getAndRemove(key)`: reads, then removes. If the read throws,
the exception propagates before `remove` runs. -/
def getAndRemove (now : Int) (st : LocalitState) (key : String) :
    Option (JSVal × LocalitState) :=
  match get now st key with
  | none => none
  | some p => some (p.1, remove p.2 key)

/-- Source `setDomain(domain)`. -/
def setDomain (st : LocalitState) (domain : String) : LocalitState :=
  { st with DOMAIN := domain }

/-- Substring test, as the JS `key.includes(needle)`. -/
def strIncludes (hay needle : String) : Bool :=
  includesChars needle.data hay.data

/-- Source `clearDomain(domain = DOMAIN)`: iterates the backend's
keys and removes every key containing the substring `` `${domain}_` ``.
The removal loop over the key snapshot is modelled as a filter. -/
def clearDomain (st : LocalitState) (domain : Option String) : LocalitState :=
  let d := domain.getD st.DOMAIN
  setActiveStore st
    (List.filter (fun p => !(strIncludes p.1 (d ++ "_"))) (activeStore st))

/-- Source `bust()`. -/
def bust (st : LocalitState) : LocalitState :=
  setActiveStore st (Storage.clear (activeStore st))

end localit

mutual

/-- Parser fuel needed for one value (for the round-trip proof). -/
def szV : JSVal → Nat
  | .arr vs => 1 + szE vs
  | .obj ms => 1 + szM ms
  | .null => 1
  | .bool _ => 1
  | .num _ _ => 1
  | .str _ => 1

/-- Parser fuel needed for array elements. -/
def szE : List JSVal → Nat
  | [] => 0
  | v :: vs => 1 + szV v + szE vs

/-- Parser fuel needed for object members. -/
def szM : List (String × JSVal) → Nat
  | [] => 0
  | (_, v) :: ms => 1 + szV v + szM ms

end

mutual

/-- Canonicality of the number representations inside a value: every
`num m e` has `e = 0` or a mantissa not divisible by ten. Each JS number
corresponds to exactly one canonical pair, the one the parser produces;
non-canonical pairs are artifacts of the encoding with no JS
counterpart. -/
def canonV : JSVal → Bool
  | .null => true
  | .bool _ => true
  | .num m e => e == 0 || !(m % 10 == 0)
  | .str _ => true
  | .arr vs => canonE vs
  | .obj ms => canonM ms

/-- Canonicality of every element of an array. -/
def canonE : List JSVal → Bool
  | [] => true
  | v :: vs => canonV v && canonE vs

/-- Canonicality of every member value of an object. -/
def canonM : List (String × JSVal) → Bool
  | [] => true
  | (_, w) :: ms => canonV w && canonM ms

end

/-- Contexts in which a printed value can occur: at the end of the input
or before a separator/closer. Ensures a printed number token is not
followed by more digits, a decimal point or an exponent marker. -/
def goodRest : List Char → Prop
  | [] => True
  | c :: _ => c = ',' ∨ c = ']' ∨ c = '}'

/-- The initial process state: given domain, primary backend selected,
both backends empty. -/
def initState (d : String) : LocalitState := ⟨d, true, [], []⟩

/-- The public operations named by the reachability claim (domain- and
backend-selection changes excluded, as in the claim). -/
inductive Op where
  | set : String → JSVal → Option String → Int → Op
  | get : String → Int → Op
  | remove : String → Op
  | getAndRemove : String → Int → Op
  | clearDomain : Option String → Op
  | bust : Op

/-- State transition of one public operation. A call that throws (a
`none` result of `get`/`getAndRemove`) leaves the state unchanged: the
exception is raised before any backend write. -/
def applyOp (st : LocalitState) : Op → LocalitState
  | .set k v e now => localit.set now st k v e
  | .get k now =>
    match localit.get now st k with
    | none => st
    | some p => p.2
  | .remove k => localit.remove st k
  | .getAndRemove k now =>
    match localit.getAndRemove now st k with
    | none => st
    | some p => p.2
  | .clearDomain d => localit.clearDomain st d
  | .bust => localit.bust st

/-- Run a sequence of public operations. -/
def runOps (st : LocalitState) (ops : List Op) : LocalitState := ops.foldl applyOp st

/-- Whether a string ends with the `EXPIRE` suffix. -/
def endsWithExpire (s : String) : Bool := List.isSuffixOf EXPIRE.data s.data

/-- Side condition for the amended invariant claim: a `set` whose derived
Full Key itself ends in the expiration suffix can collide with another
key's Expiration Key; all other operations are unrestricted. -/
def goodOp (d : String) : Op → Bool
  | .set k _ _ _ => !(endsWithExpire (getFullKey d k))
  | _ => true

/-- The invariant stated by the claim: an Expiration Key is never present
without its Stored Value. -/
def expirationImpliesValue (s : Storage) : Prop :=
  ∀ f : String, Storage.getItem s (f ++ EXPIRE) ≠ none → Storage.getItem s f ≠ none

/-- Strengthened inductive invariant: additionally, the base of a present
Expiration Key does not itself end in the expiration suffix. -/
def storeInvAux (s : Storage) : Prop :=
  ∀ f : String, Storage.getItem s (f ++ EXPIRE) ≠ none →
    (Storage.getItem s f ≠ none ∧ ¬ EXPIRE.data <:+ f.data)

/-- The strengthened invariant for both backends. -/
def stateInv (st : LocalitState) : Prop :=
  storeInvAux st.localStorage ∧ storeInvAux st.sessionStorage

/-- The expiration-spec grammar as the specification states it: one or
more leading digits followed by exactly one unit character from
`{s, m, h, d}`. (Definition written from the spec, for comparison with the
source's acceptance condition.) -/
def specExpirationGrammar (s : String) : Bool :=
  match s.data.getLast? with
  | none => false
  | some u =>
    s.data.dropLast ≠ [] && s.data.dropLast.all Char.isDigit &&
      (u == 's' || u == 'm' || u == 'h' || u == 'd')

theorem stringDataEq {s t : String} (h : s.data = t.data) : s = t := by
  cases s
  cases t
  exact congrArg String.mk h

theorem isDigit_toNat {c : Char} (h : c.isDigit = true) : 48 ≤ c.toNat ∧ c.toNat ≤ 57 := by
  simp [Char.isDigit] at h
  exact ⟨h.1, h.2⟩

theorem ne_of_toNat_ne {c d : Char} (h : c.toNat ≠ d.toNat) : c ≠ d := by
  intro he; exact h (congrArg Char.toNat he)

theorem digitsRevAux_zero (fuel : Nat) : digitsRevAux fuel 0 = [] := by
  cases fuel <;> rfl

theorem digitsRevAux_irrel :
    ∀ f1 f2 n, n ≤ f1 → n ≤ f2 → digitsRevAux f1 n = digitsRevAux f2 n := by
  intro f1
  induction f1 with
  | zero =>
    intro f2 n h1 _
    have hn : n = 0 := by omega
    subst hn
    rw [digitsRevAux_zero, digitsRevAux_zero]
  | succ a iha =>
    intro f2 n h1 h2
    match n, f2 with
    | 0, f2 => rw [digitsRevAux_zero, digitsRevAux_zero]
    | m + 1, 0 => exact absurd h2 (by omega)
    | m + 1, b + 1 =>
      show digitChar _ :: digitsRevAux a ((m + 1) / 10) =
        digitChar _ :: digitsRevAux b ((m + 1) / 10)
      congr 1
      exact iha b ((m + 1) / 10) (by omega) (by omega)

theorem digitsRev_zero : digitsRev 0 = [] := rfl

theorem digitsRev_succ (m : Nat) :
    digitsRev (m + 1) = digitChar ((m + 1) % 10) :: digitsRev ((m + 1) / 10) := by
  show digitsRevAux (m + 1) (m + 1) = _
  show digitChar ((m + 1) % 10) :: digitsRevAux m ((m + 1) / 10) = _
  congr 1
  exact digitsRevAux_irrel m ((m + 1) / 10) ((m + 1) / 10) (by omega) (Nat.le_refl _)

theorem natOfDigits_nil (acc : Nat) : natOfDigits acc [] = acc := rfl

theorem digitChar_toNat : ∀ d, d < 10 → (digitChar d).toNat = 48 + d := by decide

theorem digitChar_isDigit : ∀ d, d < 10 → (digitChar d).isDigit = true := by decide

theorem hexVal_hexDigit : ∀ d, d < 16 → hexVal? (hexDigit d) = some d := by decide

theorem natOfDigits_cons (acc : Nat) (c : Char) (l : List Char) :
    natOfDigits acc (c :: l) = natOfDigits (acc * 10 + (c.toNat - 48)) l := rfl

theorem natOfDigits_append (acc : Nat) (l1 l2 : List Char) :
    natOfDigits acc (l1 ++ l2) = natOfDigits (natOfDigits acc l1) l2 := by
  induction l1 generalizing acc with
  | nil => rfl
  | cons c cs ih => rw [List.cons_append, natOfDigits_cons, natOfDigits_cons]; exact ih _

theorem natOfDigits_singleton (acc : Nat) (c : Char) :
    natOfDigits acc [c] = acc * 10 + (c.toNat - 48) := rfl

theorem digitsRev_spec :
    ∀ n acc, natOfDigits acc (digitsRev n).reverse =
      acc * 10 ^ (digitsRev n).length + n := by
  intro n
  induction n using Nat.strong_induction_on with
  | _ n ih =>
    match n with
    | 0 => intro acc; rw [digitsRev_zero]; simp [natOfDigits_nil]
    | m + 1 =>
      intro acc
      rw [digitsRev_succ]
      simp only [List.reverse_cons, List.length_cons]
      rw [natOfDigits_append, ih ((m + 1) / 10) (Nat.div_lt_self (Nat.succ_pos m) (by omega)) acc]
      rw [natOfDigits_singleton, digitChar_toNat _ (Nat.mod_lt _ (by omega))]
      have hqr : 10 * ((m + 1) / 10) + (m + 1) % 10 = m + 1 := Nat.div_add_mod _ _
      have hring :
          (acc * 10 ^ (digitsRev ((m + 1) / 10)).length + (m + 1) / 10) * 10 +
              (48 + (m + 1) % 10 - 48) =
            acc * (10 ^ (digitsRev ((m + 1) / 10)).length * 10) +
              ((m + 1) / 10 * 10 + (m + 1) % 10) := by
        have h48 : 48 + (m + 1) % 10 - 48 = (m + 1) % 10 := by omega
        rw [h48]; ring
      rw [hring, pow_succ]
      omega

theorem digitsRev_digits : ∀ n, ∀ c ∈ digitsRev n, c.isDigit = true := by
  intro n
  induction n using Nat.strong_induction_on with
  | _ n ih =>
    match n with
    | 0 => intro c hc; rw [digitsRev_zero] at hc; simp at hc
    | m + 1 =>
      intro c hc
      rw [digitsRev_succ] at hc
      rcases List.mem_cons.mp hc with h | h
      · subst h; exact digitChar_isDigit _ (Nat.mod_lt _ (by omega))
      · exact ih ((m + 1) / 10) (Nat.div_lt_self (Nat.succ_pos m) (by omega)) c h

theorem digitsRev_head_rev :
    ∀ n, 0 < n → ∃ c cs, (digitsRev n).reverse = c :: cs ∧ c.isDigit = true ∧ c ≠ '0' ∧
      (∀ x ∈ cs, x.isDigit = true) := by
  intro n
  induction n using Nat.strong_induction_on with
  | _ n ih =>
    match n with
    | 0 => intro h; omega
    | m + 1 =>
      intro _
      rw [digitsRev_succ]
      by_cases hq : (m + 1) / 10 = 0
      · rw [hq]
        refine ⟨digitChar ((m + 1) % 10), [], by simp [digitsRev_zero],
          digitChar_isDigit _ (Nat.mod_lt _ (by omega)), ?_, by simp⟩
        intro he
        have htn := digitChar_toNat ((m + 1) % 10) (Nat.mod_lt _ (by omega))
        rw [he] at htn
        have h0 : ('0').toNat = 48 := rfl
        omega
      · obtain ⟨c, cs, hrev, hcd, hc0, hcs⟩ :=
          ih ((m + 1) / 10) (Nat.div_lt_self (Nat.succ_pos m) (by omega)) (by omega)
        refine ⟨c, cs ++ [digitChar ((m + 1) % 10)], ?_, hcd, hc0, ?_⟩
        · simp [hrev]
        · intro x hx
          rcases List.mem_append.mp hx with h | h
          · exact hcs x h
          · simp at h; subst h; exact digitChar_isDigit _ (Nat.mod_lt _ (by omega))

theorem natChars_spec (n : Nat) :
    ∃ c cs, natChars n = c :: cs ∧ c.isDigit = true ∧ (∀ x ∈ cs, x.isDigit = true) ∧
      natOfDigits 0 (c :: cs) = n ∧ (c = '0' → cs = []) := by
  by_cases hn : n = 0
  · subst hn
    exact ⟨'0', [], rfl, by decide, by simp, by decide, fun _ => rfl⟩
  · obtain ⟨c, cs, hrev, hcd, hc0, hcs⟩ := digitsRev_head_rev n (by omega)
    have hval : natOfDigits 0 (c :: cs) = n := by
      have hds := digitsRev_spec n 0
      rw [hrev] at hds
      simpa using hds
    obtain ⟨m, rfl⟩ : ∃ m, n = m + 1 := ⟨n - 1, by omega⟩
    exact ⟨c, cs, by rw [show natChars (m + 1) = (digitsRev (m + 1)).reverse from rfl, hrev],
      hcd, hcs, hval, fun h => absurd h hc0⟩

theorem takeWhile_digits_append (ds rest : List Char) (h1 : ∀ c ∈ ds, c.isDigit = true)
    (h2 : ∀ c, rest.head? = some c → c.isDigit = false) :
    (ds ++ rest).takeWhile Char.isDigit = ds ∧ (ds ++ rest).dropWhile Char.isDigit = rest := by
  induction ds with
  | nil =>
    cases rest with
    | nil => simp
    | cons c cs =>
      have hc := h2 c rfl
      simp [List.takeWhile_cons, List.dropWhile_cons, hc]
  | cons c cs ih =>
    have hc := h1 c (by simp)
    have hrec := ih fun x hx => h1 x (by simp [hx])
    simp [List.takeWhile_cons, List.dropWhile_cons, hc, hrec.1, hrec.2]

theorem psbStep (n : Nat) (cs : List Char) :
    parseStringBody (n + 1) cs =
      match readStringItem cs with
      | some (none, rest) => some ([], rest)
      | some (some c, rest) =>
        (match parseStringBody n rest with
         | some (s, r) => some (c :: s, r)
         | none => none)
      | none => none := rfl

theorem rsiQuote (t : List Char) : readStringItem ('"' :: t) = some (none, t) := rfl

theorem rsiEsc (e c1 : Char) (t : List Char) (hu : ¬ e = 'u') (he : unescape? e = some c1) :
    readStringItem ('\\' :: e :: t) = some (some c1, t) := by
  rw [readStringItem]
  simp only [if_neg (show ¬ ('\\' : Char) = '"' by decide), if_pos rfl, if_true]
  rw [readEscape]
  simp only [if_neg hu, he]

theorem rsiU (h3 h4 : Char) (d1 d2 : Nat) (t : List Char)
    (e3 : hexVal? h3 = some d1) (e4 : hexVal? h4 = some d2) :
    readStringItem ('\\' :: 'u' :: '0' :: '0' :: h3 :: h4 :: t) =
      some (some (Char.ofNat (((0 * 16 + 0) * 16 + d1) * 16 + d2)), t) := by
  rw [readStringItem]
  simp only [if_neg (show ¬ ('\\' : Char) = '"' by decide), if_pos rfl, if_true]
  rw [readEscape]
  simp only [if_pos rfl, if_true]
  rw [readHex4]
  rw [show hexVal? '0' = some 0 from rfl, e3, e4]

theorem rsiChar (c : Char) (t : List Char) (h1 : ¬ c = '"') (h2 : ¬ c = '\\')
    (h3 : ¬ c.toNat < 32) : readStringItem (c :: t) = some (some c, t) := by
  rw [readStringItem]
  simp only [if_neg h1, if_neg h2, if_neg h3]

theorem psbQuote (m : Nat) (t : List Char) :
    parseStringBody (m + 1) ('"' :: t) = some ([], t) := by
  rw [psbStep, rsiQuote]

theorem psbEsc (m : Nat) (e c1 : Char) (t : List Char) (hu : ¬ e = 'u')
    (he : unescape? e = some c1) :
    parseStringBody (m + 1) ('\\' :: e :: t) =
      match parseStringBody m t with | some (s, r) => some (c1 :: s, r) | none => none := by
  rw [psbStep, rsiEsc e c1 t hu he]

theorem psbU (m : Nat) (h3 h4 : Char) (d1 d2 : Nat) (t : List Char)
    (e3 : hexVal? h3 = some d1) (e4 : hexVal? h4 = some d2) :
    parseStringBody (m + 1) ('\\' :: 'u' :: '0' :: '0' :: h3 :: h4 :: t) =
      match parseStringBody m t with
      | some (s, r) => some (Char.ofNat (((0 * 16 + 0) * 16 + d1) * 16 + d2) :: s, r)
      | none => none := by
  rw [psbStep, rsiU h3 h4 d1 d2 t e3 e4]

theorem psbChar (m : Nat) (c : Char) (t : List Char) (h1 : ¬ c = '"') (h2 : ¬ c = '\\')
    (h3 : ¬ c.toNat < 32) :
    parseStringBody (m + 1) (c :: t) =
      match parseStringBody m t with | some (s, r) => some (c :: s, r) | none => none := by
  rw [psbStep, rsiChar c t h1 h2 h3]

theorem escapeBody_cons (c : Char) (cs : List Char) :
    escapeBody (c :: cs) = escapeChar c ++ escapeBody cs := rfl

theorem parseStringBody_escape :
    ∀ (body rest : List Char) (n : Nat), (escapeBody body).length + 1 ≤ n →
      parseStringBody n (escapeBody body ++ '"' :: rest) = some (body, rest) := by
  intro body
  induction body with
  | nil =>
    intro rest n hn
    obtain ⟨m, rfl⟩ : ∃ m, n = m + 1 := ⟨n - 1, by omega⟩
    exact psbQuote m rest
  | cons c cs ih =>
    intro rest n hn
    rw [escapeBody_cons] at hn ⊢
    rw [List.append_assoc]
    have hlc : 1 ≤ (escapeChar c).length := by
      rw [escapeChar]
      repeat' split
      all_goals simp
    obtain ⟨m, rfl⟩ : ∃ m, n = m + 1 := ⟨n - 1, by omega⟩
    have hm : (escapeBody cs).length + 1 ≤ m := by
      rw [List.length_append] at hn
      omega
    have hrec := ih rest m hm
    by_cases h1 : c = '"'
    · subst h1
      rw [show escapeChar '"' = ['\\', '"'] from rfl]
      rw [show ((['\\', '"'] : List Char) ++ (escapeBody cs ++ '"' :: rest)) =
        '\\' :: '"' :: (escapeBody cs ++ '"' :: rest) from rfl]
      rw [psbEsc m '"' '"' _ (by decide) rfl, hrec]
    · by_cases h2 : c = '\\'
      · subst h2
        rw [show escapeChar '\\' = ['\\', '\\'] from rfl]
        rw [show ((['\\', '\\'] : List Char) ++ (escapeBody cs ++ '"' :: rest)) =
          '\\' :: '\\' :: (escapeBody cs ++ '"' :: rest) from rfl]
        rw [psbEsc m '\\' '\\' _ (by decide) rfl, hrec]
      · by_cases h3 : c.toNat = 8
        · have hc : c = Char.ofNat 8 := by rw [← h3, Char.ofNat_toNat]
          subst hc
          rw [show escapeChar (Char.ofNat 8) = ['\\', 'b'] from rfl]
          rw [show ((['\\', 'b'] : List Char) ++ (escapeBody cs ++ '"' :: rest)) =
            '\\' :: 'b' :: (escapeBody cs ++ '"' :: rest) from rfl]
          rw [psbEsc m 'b' (Char.ofNat 8) _ (by decide) rfl, hrec]
        · by_cases h4 : c.toNat = 9
          · have hc : c = Char.ofNat 9 := by rw [← h4, Char.ofNat_toNat]
            subst hc
            rw [show escapeChar (Char.ofNat 9) = ['\\', 't'] from rfl]
            rw [show ((['\\', 't'] : List Char) ++ (escapeBody cs ++ '"' :: rest)) =
              '\\' :: 't' :: (escapeBody cs ++ '"' :: rest) from rfl]
            rw [psbEsc m 't' (Char.ofNat 9) _ (by decide) rfl, hrec]
          · by_cases h5 : c.toNat = 10
            · have hc : c = Char.ofNat 10 := by rw [← h5, Char.ofNat_toNat]
              subst hc
              rw [show escapeChar (Char.ofNat 10) = ['\\', 'n'] from rfl]
              rw [show ((['\\', 'n'] : List Char) ++ (escapeBody cs ++ '"' :: rest)) =
                '\\' :: 'n' :: (escapeBody cs ++ '"' :: rest) from rfl]
              rw [psbEsc m 'n' (Char.ofNat 10) _ (by decide) rfl, hrec]
            · by_cases h6 : c.toNat = 12
              · have hc : c = Char.ofNat 12 := by rw [← h6, Char.ofNat_toNat]
                subst hc
                rw [show escapeChar (Char.ofNat 12) = ['\\', 'f'] from rfl]
                rw [show ((['\\', 'f'] : List Char) ++ (escapeBody cs ++ '"' :: rest)) =
                  '\\' :: 'f' :: (escapeBody cs ++ '"' :: rest) from rfl]
                rw [psbEsc m 'f' (Char.ofNat 12) _ (by decide) rfl, hrec]
              · by_cases h7 : c.toNat = 13
                · have hc : c = Char.ofNat 13 := by rw [← h7, Char.ofNat_toNat]
                  subst hc
                  rw [show escapeChar (Char.ofNat 13) = ['\\', 'r'] from rfl]
                  rw [show ((['\\', 'r'] : List Char) ++ (escapeBody cs ++ '"' :: rest)) =
                    '\\' :: 'r' :: (escapeBody cs ++ '"' :: rest) from rfl]
                  rw [psbEsc m 'r' (Char.ofNat 13) _ (by decide) rfl, hrec]
                · by_cases h8 : c.toNat < 32
                  · rw [show escapeChar c =
                      ['\\', 'u', '0', '0', hexDigit (c.toNat / 16), hexDigit (c.toNat % 16)] by
                        rw [escapeChar]
                        simp only [if_neg h1, if_neg h2, if_neg h3, if_neg h4, if_neg h5,
                          if_neg h6, if_neg h7, if_pos h8]]
                    rw [show ((['\\', 'u', '0', '0', hexDigit (c.toNat / 16),
                        hexDigit (c.toNat % 16)] : List Char) ++ (escapeBody cs ++ '"' :: rest)) =
                      '\\' :: 'u' :: '0' :: '0' :: hexDigit (c.toNat / 16) ::
                        hexDigit (c.toNat % 16) :: (escapeBody cs ++ '"' :: rest) from rfl]
                    rw [psbU m _ _ (c.toNat / 16) (c.toNat % 16) _
                      (hexVal_hexDigit _ (by omega)) (hexVal_hexDigit _ (by omega)), hrec]
                    have harith : ((0 * 16 + 0) * 16 + c.toNat / 16) * 16 + c.toNat % 16 =
                        c.toNat := by omega
                    rw [harith, Char.ofNat_toNat]
                  · rw [show escapeChar c = [c] by
                      rw [escapeChar]
                      simp only [if_neg h1, if_neg h2, if_neg h3, if_neg h4, if_neg h5,
                        if_neg h6, if_neg h7, if_neg h8]]
                    rw [show (([c] : List Char) ++ (escapeBody cs ++ '"' :: rest)) =
                      c :: (escapeBody cs ++ '"' :: rest) from rfl]
                    have h1' : ¬ c = '"' := h1
                    rw [psbChar m c _ h1 h2 h8, hrec]

theorem isPrefixOf_nilP (l : List Char) : List.isPrefixOf ([] : List Char) l = true := by
  cases l <;> rfl

theorem isPrefixOf_consP (a b : Char) (as bs : List Char) :
    List.isPrefixOf (a :: as) (b :: bs) = (a == b && List.isPrefixOf as bs) := rfl

theorem isPrefixOf_cons_neq (a b : Char) (as bs : List Char) (h : ¬ b = a) :
    List.isPrefixOf (a :: as) (b :: bs) = false := by
  rw [isPrefixOf_consP]
  have : (a == b) = false := beq_eq_false_iff_ne.mpr (Ne.symm h)
  rw [this, Bool.false_and]

theorem isPrefixOf_append_right (l1 l2 t : List Char) (h : List.isPrefixOf l1 l2 = true) :
    List.isPrefixOf l1 (l2 ++ t) = true := by
  induction l1 generalizing l2 with
  | nil => exact isPrefixOf_nilP _
  | cons a as ih =>
    cases l2 with
    | nil => exact absurd h (by simp)
    | cons b bs =>
      rw [isPrefixOf_consP] at h
      rw [List.cons_append, isPrefixOf_consP]
      rcases Bool.and_eq_true_iff.mp h with ⟨h1, h2⟩
      rw [h1, ih bs h2, Bool.and_self]

theorem skipWs_nil : skipWs [] = [] := rfl

theorem skipWs_consP (c : Char) (cs : List Char) (h : isJsonWs c = false) :
    skipWs (c :: cs) = c :: cs := by
  rw [skipWs, List.dropWhile_cons, h]
  simp

theorem digit_ne {c : Char} (h : c.isDigit = true) (d : Char)
    (hd : d.toNat < 48 ∨ 57 < d.toNat) : c ≠ d := by
  have hb := isDigit_toNat h
  apply ne_of_toNat_ne
  omega

theorem digit_not_ws {c : Char} (h : c.isDigit = true) : isJsonWs c = false := by
  have hb := isDigit_toNat h
  simp only [isJsonWs, Bool.or_eq_false_iff, beq_eq_false_iff_ne]
  refine ⟨⟨⟨?_, ?_⟩, ?_⟩, ?_⟩ <;> omega

theorem goodRest_not_digit {rest : List Char} (h : goodRest rest) :
    ∀ c, rest.head? = some c → c.isDigit = false := by
  cases rest with
  | nil => intro c hc; cases hc
  | cons r rs =>
    intro c hc
    have hrc : r = c := by simpa using hc
    subst hrc
    rcases h with h | h | h <;> (subst h; decide)

theorem goodRest_skipWs {rest : List Char} (h : goodRest rest) : skipWs rest = rest := by
  cases rest with
  | nil => rfl
  | cons r rs =>
    rcases h with h | h | h <;> (subst h; exact skipWs_consP _ _ (by decide))

theorem goodRest_sep {rest : List Char} (h : goodRest rest) :
    ∀ c, rest.head? = some c →
      c.isDigit = false ∧ ¬ c = '.' ∧ ¬ c = 'e' ∧ ¬ c = 'E' := by
  cases rest with
  | nil => intro c hc; cases hc
  | cons r rs =>
    intro c hc
    have hrc : r = c := by simpa using hc
    subst hrc
    rcases h with h | h | h <;> (subst h; refine ⟨?_, ?_, ?_, ?_⟩ <;> decide)

theorem intChars_head (i : Int) :
    ∃ c cs, intChars i = c :: cs ∧ (c = '-' ∨ c.isDigit = true) := by
  rw [intChars]
  by_cases h : i < 0
  · exact ⟨'-', natChars i.natAbs, by simp [h], Or.inl rfl⟩
  · obtain ⟨c, cs, hnc, hcd, _, _, _⟩ := natChars_spec i.natAbs
    exact ⟨c, cs, by simp [h, hnc], Or.inr hcd⟩

theorem natChars_ne_nil (n : Nat) : natChars n ≠ [] := by
  obtain ⟨c, cs, hnc, _, _, _, _⟩ := natChars_spec n
  rw [hnc]
  simp

theorem natChars_digits (n : Nat) : ∀ x ∈ natChars n, x.isDigit = true := by
  obtain ⟨c, cs, hnc, hcd, hcsd, _, _⟩ := natChars_spec n
  rw [hnc]
  intro x hx
  rcases List.mem_cons.mp hx with h | h
  · subst h; exact hcd
  · exact hcsd x h

theorem natChars_headz (n : Nat) : (natChars n).head? = some '0' → natChars n = ['0'] := by
  obtain ⟨c, cs, hnc, _, _, _, hzero⟩ := natChars_spec n
  rw [hnc]
  intro h
  have hc : c = '0' := by simpa using h
  rw [hc, hzero hc]

theorem natOfDigits_natChars (n : Nat) : natOfDigits 0 (natChars n) = n := by
  obtain ⟨c, cs, hnc, _, _, hval, _⟩ := natChars_spec n
  rw [hnc]
  exact hval

theorem natOfDigits_zeros : ∀ z : Nat, natOfDigits 0 (List.replicate z '0') = 0 := by
  intro z
  induction z with
  | zero => rfl
  | succ m ih =>
    rw [List.replicate_succ, natOfDigits_cons]
    exact ih

theorem parseIntDigits_run (ds rest : List Char) (hne : ds ≠ [])
    (hd : ∀ c ∈ ds, c.isDigit = true)
    (hz : ds.head? = some '0' → ds = ['0'])
    (hrest : ∀ c, rest.head? = some c → c.isDigit = false) :
    parseIntDigits (ds ++ rest) = some (ds, rest) := by
  cases ds with
  | nil => exact absurd rfl hne
  | cons c cs =>
    by_cases hc0 : c = '0'
    · subst hc0
      have hcs : cs = [] := by
        have h1 := hz rfl
        injection h1 with _ h2
      subst hcs
      cases rest with
      | nil => rfl
      | cons r rs =>
        have hr := hrest r rfl
        simp [parseIntDigits, hr]
    · have hcd := hd c (by simp)
      have hTD := takeWhile_digits_append cs rest (fun x hx => hd x (by simp [hx])) hrest
      simp only [List.cons_append]
      simp only [parseIntDigits, if_neg hc0, hcd, if_pos, hTD.1, hTD.2]

theorem parseFracPart_nodot (rest : List Char)
    (h : ∀ c, rest.head? = some c → ¬ c = '.') :
    parseFracPart rest = some ([], rest) := by
  cases rest with
  | nil => rfl
  | cons c cs => rw [parseFracPart, if_neg (h c rfl)]

theorem parseFracPart_dot (fds rest : List Char) (hne : fds ≠ [])
    (hd : ∀ c ∈ fds, c.isDigit = true)
    (hrest : ∀ c, rest.head? = some c → c.isDigit = false) :
    parseFracPart ('.' :: (fds ++ rest)) = some (fds, rest) := by
  have hTD := takeWhile_digits_append fds rest hd hrest
  rw [parseFracPart, if_pos rfl, hTD.1, hTD.2, if_neg hne]

theorem parseExpPart_none (rest : List Char)
    (h : ∀ c, rest.head? = some c → ¬ c = 'e' ∧ ¬ c = 'E') :
    parseExpPart rest = some (0, rest) := by
  cases rest with
  | nil => rfl
  | cons c cs =>
    have hc := h c rfl
    rw [parseExpPart.eq_def]
    dsimp only
    rw [if_neg (not_or.mpr ⟨hc.1, hc.2⟩)]

theorem stripZeros_pos (n s : Nat) (hn : ¬ n % 10 = 0) :
    stripZeros n (s + 1) = (n, s + 1) := by
  rw [stripZeros, if_neg hn]

theorem mkDec_int (neg : Bool) (mag : Nat) :
    mkDec neg mag 0 0 = (condNeg neg (mag : Int), 0) := by
  rw [mkDec, if_pos (by norm_num)]
  norm_num

theorem mkDec_frac (neg : Bool) (mag e : Nat) (he : 0 < e) (hn : ¬ mag % 10 = 0) :
    mkDec neg mag e 0 = (condNeg neg (mag : Int), e) := by
  obtain ⟨s, rfl⟩ : ∃ s, e = s + 1 := ⟨e - 1, by omega⟩
  rw [mkDec, if_neg (by omega)]
  have ht : (((s + 1 : Nat) : Int) - 0).toNat = s + 1 := by omega
  rw [ht, stripZeros_pos _ _ hn]

theorem parseUnsignedNum_int (neg : Bool) (n : Nat) (rest : List Char)
    (hrest : ∀ c, rest.head? = some c →
      c.isDigit = false ∧ ¬ c = '.' ∧ ¬ c = 'e' ∧ ¬ c = 'E') :
    parseUnsignedNum neg (natChars n ++ rest) = some (.num (condNeg neg n) 0, rest) := by
  rw [parseUnsignedNum,
    parseIntDigits_run (natChars n) rest (natChars_ne_nil n) (natChars_digits n)
      (natChars_headz n) (fun c hc => (hrest c hc).1)]
  dsimp only
  rw [parseFracPart_nodot rest (fun c hc => (hrest c hc).2.1)]
  dsimp only
  rw [parseExpPart_none rest (fun c hc => ⟨(hrest c hc).2.2.1, (hrest c hc).2.2.2⟩)]
  dsimp only
  rw [List.append_nil, natOfDigits_natChars,
    show (([] : List Char)).length = 0 from rfl, mkDec_int]

theorem decPad_parts (n e : Nat) (he : 0 < e) :
    ∃ ip fp, decPad n e = ip ++ '.' :: fp ∧ ip ≠ [] ∧ fp ≠ [] ∧
      (∀ c ∈ ip, c.isDigit = true) ∧ (∀ c ∈ fp, c.isDigit = true) ∧
      (ip.head? = some '0' → ip = ['0']) ∧
      natOfDigits 0 (ip ++ fp) = n ∧ fp.length = e := by
  obtain ⟨c0, cs0, hnc, hcd, hcsd, hval, hzero⟩ := natChars_spec n
  have hlen : (natChars n).length = cs0.length + 1 := by rw [hnc]; rfl
  have hplen : (padDigits n e).length =
      (e + 1 - (natChars n).length) + (natChars n).length := by
    rw [padDigits, List.length_append, List.length_replicate]
  have hpge : e + 1 ≤ (padDigits n e).length := by omega
  have hpdig : ∀ c ∈ padDigits n e, c.isDigit = true := by
    intro c hc
    rcases List.mem_append.mp hc with h | h
    · rw [List.eq_of_mem_replicate h]; decide
    · exact natChars_digits n c h
  have hpval : natOfDigits 0 (padDigits n e) = n := by
    rw [padDigits, natOfDigits_append, natOfDigits_zeros, natOfDigits_natChars]
  refine ⟨(padDigits n e).take ((padDigits n e).length - e),
    (padDigits n e).drop ((padDigits n e).length - e), rfl, ?_, ?_, ?_, ?_, ?_, ?_, ?_⟩
  · have hl : ((padDigits n e).take ((padDigits n e).length - e)).length =
        (padDigits n e).length - e := by
      rw [List.length_take]
      omega
    intro h0
    rw [h0] at hl
    simp at hl
    omega
  · have hl : ((padDigits n e).drop ((padDigits n e).length - e)).length = e := by
      rw [List.length_drop]
      omega
    intro h0
    rw [h0] at hl
    simp at hl
    omega
  · exact fun c hc => hpdig c (List.take_subset _ _ hc)
  · exact fun c hc => hpdig c (List.drop_subset _ _ hc)
  · intro h0
    by_cases hz : e + 1 - (natChars n).length = 0
    · exfalso
      have hpn : padDigits n e = natChars n := by
        rw [padDigits, hz, List.replicate_zero, List.nil_append]
      rw [hpn, hnc] at h0
      obtain ⟨j, hj⟩ : ∃ j, (c0 :: cs0).length - e = j + 1 := by
        refine ⟨cs0.length - e, ?_⟩
        simp only [List.length_cons]
        omega
      rw [hj] at h0
      rw [show List.take (j + 1) (c0 :: cs0) = c0 :: List.take j cs0 from rfl] at h0
      have hc0' : c0 = '0' := by simpa using h0
      have hcs0 := hzero hc0'
      rw [hcs0] at hlen
      simp at hlen
      omega
    · have h1 : (padDigits n e).length - e = 1 := by omega
      obtain ⟨x, xs, hpx⟩ : ∃ x xs, padDigits n e = x :: xs := by
        cases hp : padDigits n e with
        | nil => rw [hp] at hpge; simp at hpge
        | cons x xs => exact ⟨x, xs, rfl⟩
      rw [h1, hpx] at h0 ⊢
      rw [show List.take 1 (x :: xs) = [x] from rfl] at h0 ⊢
      have hx0 : x = '0' := by simpa using h0
      rw [hx0]
  · rw [List.take_append_drop]
    exact hpval
  · rw [List.length_drop]
    omega

theorem parseUnsignedNum_dec (neg : Bool) (n e : Nat) (rest : List Char) (he : 0 < e)
    (hn : ¬ n % 10 = 0)
    (hrest : ∀ c, rest.head? = some c →
      c.isDigit = false ∧ ¬ c = '.' ∧ ¬ c = 'e' ∧ ¬ c = 'E') :
    parseUnsignedNum neg (decPad n e ++ rest) = some (.num (condNeg neg n) e, rest) := by
  obtain ⟨ip, fp, hsplit, hipne, hfpne, hipd, hfpd, hipz, hval, hfplen⟩ := decPad_parts n e he
  rw [hsplit, List.append_assoc, List.cons_append]
  rw [parseUnsignedNum,
    parseIntDigits_run ip ('.' :: (fp ++ rest)) hipne hipd hipz
      (fun c hc => by
        have hcc : '.' = c := by simpa using hc
        rw [← hcc]
        decide)]
  dsimp only
  rw [parseFracPart_dot fp rest hfpne hfpd (fun c hc => (hrest c hc).1)]
  dsimp only
  rw [parseExpPart_none rest (fun c hc => ⟨(hrest c hc).2.2.1, (hrest c hc).2.2.2⟩)]
  dsimp only
  rw [hval, hfplen, mkDec_frac neg n e he hn]

theorem decPad_shape (n e : Nat) (he : 0 < e) :
    ∃ c cs, decPad n e = c :: cs ∧ c.isDigit = true := by
  obtain ⟨ip, fp, hsplit, hipne, _, hipd, _, _, _, _⟩ := decPad_parts n e he
  cases ip with
  | nil => exact absurd rfl hipne
  | cons c cs' =>
    exact ⟨c, cs' ++ '.' :: fp, by rw [hsplit]; rfl, hipd c (by simp)⟩

theorem decChars_shape (m : Int) (e : Nat) :
    ∃ c cs, decChars m e = c :: cs ∧ (c = '-' ∨ c.isDigit = true) := by
  rw [decChars]
  by_cases he : e = 0
  · rw [if_pos he]
    exact intChars_head m
  · rw [if_neg he]
    by_cases hm : m < 0
    · rw [if_pos hm]
      exact ⟨'-', _, rfl, Or.inl rfl⟩
    · rw [if_neg hm]
      obtain ⟨c, cs, hdc, hcd⟩ := decPad_shape m.natAbs e (by omega)
      exact ⟨c, cs, hdc, Or.inr hcd⟩

theorem natAbs_mod10 {m : Int} (h : ¬ m % 10 = 0) : ¬ m.natAbs % 10 = 0 := by
  intro h10
  apply h
  have hdvd : (10 : Nat) ∣ m.natAbs := Nat.dvd_of_mod_eq_zero h10
  have hdvd2 : (10 : Int) ∣ m := Int.natAbs_dvd_natAbs.mp (by simpa using hdvd)
  exact Int.emod_eq_zero_of_dvd hdvd2

theorem parseNumTok_decChars (m : Int) (e : Nat) (rest : List Char)
    (hcn : e = 0 ∨ ¬ m % 10 = 0)
    (hrest : ∀ c, rest.head? = some c →
      c.isDigit = false ∧ ¬ c = '.' ∧ ¬ c = 'e' ∧ ¬ c = 'E') :
    parseNumTok (decChars m e ++ rest) = some (.num m e, rest) := by
  by_cases he : e = 0
  · subst he
    rw [decChars, if_pos rfl, intChars]
    by_cases hm : m < 0
    · rw [if_pos hm, List.cons_append]
      rw [show parseNumTok ('-' :: (natChars m.natAbs ++ rest)) =
        parseUnsignedNum true (natChars m.natAbs ++ rest) from rfl]
      rw [parseUnsignedNum_int true m.natAbs rest hrest]
      have hcn' : condNeg true ((m.natAbs : Int)) = m := by
        rw [condNeg, if_pos rfl]
        omega
      rw [hcn']
    · rw [if_neg hm]
      obtain ⟨c, cs, hnc, hcd, _, _, _⟩ := natChars_spec m.natAbs
      have hcm : ¬ c = '-' := digit_ne hcd '-' (by decide)
      rw [hnc, List.cons_append]
      simp only [parseNumTok]
      rw [if_neg hcm, ← List.cons_append, ← hnc]
      rw [parseUnsignedNum_int false m.natAbs rest hrest]
      have hcn' : condNeg false ((m.natAbs : Int)) = m := by
        rw [condNeg, if_neg (by simp)]
        omega
      rw [hcn']
  · have hmod : ¬ m % 10 = 0 := hcn.resolve_left he
    have hnabs := natAbs_mod10 hmod
    have he' : 0 < e := by omega
    rw [decChars, if_neg he]
    by_cases hm : m < 0
    · rw [if_pos hm, List.cons_append]
      rw [show parseNumTok ('-' :: (decPad m.natAbs e ++ rest)) =
        parseUnsignedNum true (decPad m.natAbs e ++ rest) from rfl]
      rw [parseUnsignedNum_dec true m.natAbs e rest he' hnabs hrest]
      have hcn' : condNeg true ((m.natAbs : Int)) = m := by
        rw [condNeg, if_pos rfl]
        omega
      rw [hcn']
    · rw [if_neg hm]
      obtain ⟨c, cs, hdc, hcd⟩ := decPad_shape m.natAbs e he'
      have hcm : ¬ c = '-' := digit_ne hcd '-' (by decide)
      rw [hdc, List.cons_append]
      simp only [parseNumTok]
      rw [if_neg hcm, ← List.cons_append, ← hdc]
      rw [parseUnsignedNum_dec false m.natAbs e rest he' hnabs hrest]
      have hcn' : condNeg false ((m.natAbs : Int)) = m := by
        rw [condNeg, if_neg (by simp)]
        omega
      rw [hcn']

theorem canon_num {m : Int} {e : Nat} (h : canonV (.num m e) = true) :
    e = 0 ∨ ¬ m % 10 = 0 := by
  simp only [canonV, Bool.or_eq_true, beq_iff_eq, Bool.not_eq_true',
    beq_eq_false_iff_ne] at h
  exact h

theorem canonE_cons {v : JSVal} {vs : List JSVal} (h : canonE (v :: vs) = true) :
    canonV v = true ∧ canonE vs = true := by
  rw [canonE] at h
  exact Bool.and_eq_true_iff.mp h

theorem canonM_cons {k : String} {w : JSVal} {ms : List (String × JSVal)}
    (h : canonM ((k, w) :: ms) = true) : canonV w = true ∧ canonM ms = true := by
  rw [canonM] at h
  exact Bool.and_eq_true_iff.mp h

theorem stringify_head (v : JSVal) :
    ∃ c cs, stringifyChars v = c :: cs ∧ isJsonWs c = false ∧ c ≠ ']' ∧ c ≠ '}' := by
  cases v with
  | num m e =>
    obtain ⟨c, cs, hic, hc⟩ := decChars_shape m e
    rcases hc with h | h
    · subst h
      refine ⟨'-', cs, hic, ?_, ?_, ?_⟩ <;> decide
    · exact ⟨c, cs, hic, digit_not_ws h, digit_ne h ']' (by decide),
        digit_ne h '}' (by decide)⟩
  | bool b =>
    cases b with
    | true => refine ⟨'t', _, rfl, ?_, ?_, ?_⟩ <;> decide
    | false => refine ⟨'f', _, rfl, ?_, ?_, ?_⟩ <;> decide
  | null => refine ⟨'n', _, rfl, ?_, ?_, ?_⟩ <;> decide
  | str s => refine ⟨'"', _, rfl, ?_, ?_, ?_⟩ <;> decide
  | arr vs => refine ⟨'[', _, rfl, ?_, ?_, ?_⟩ <;> decide
  | obj ms => refine ⟨'{', _, rfl, ?_, ?_, ?_⟩ <;> decide

theorem szV_pos : ∀ v, 1 ≤ szV v := by
  intro v
  cases v <;> simp [szV]
theorem parse_roundtrip :
    ∀ n : Nat,
      (∀ (v : JSVal) (rest : List Char), szV v ≤ n → canonV v = true → goodRest rest →
        parseVal n (stringifyChars v ++ rest) = some (v, rest)) ∧
      (∀ (v : JSVal) (vs : List JSVal) (rest : List Char), 1 + szV v + szE vs ≤ n →
        canonV v = true → canonE vs = true → goodRest rest →
        parseElems n (stringifyChars v ++ (stringifyRestChars vs ++ ']' :: rest)) =
          some (v :: vs, rest)) ∧
      (∀ (k : String) (v : JSVal) (ms : List (String × JSVal)) (rest : List Char),
        1 + szV v + szM ms ≤ n → canonV v = true → canonM ms = true → goodRest rest →
        parseMembers n
          (('"' :: (escapeBody k.data ++ '"' :: ':' :: stringifyChars v)) ++
            (stringifyMembersRestChars ms ++ '}' :: rest)) = some ((k, v) :: ms, rest)) := by
  intro n
  induction n with
  | zero =>
    refine ⟨fun v rest hsz _ _ => absurd hsz (by have := szV_pos v; omega),
      fun v vs rest hsz _ _ _ => absurd hsz (by omega),
      fun k v ms rest hsz _ _ _ => absurd hsz (by omega)⟩
  | succ n ih =>
    obtain ⟨ihV, ihE, ihM⟩ := ih
    refine ⟨?_, ?_, ?_⟩
    · -- parseVal
      intro v rest hsz hcv hrest
      cases v with
      | null =>
        show parseVal (n + 1) ((('n' : Char)) :: 'u' :: 'l' :: 'l' :: rest) =
          some (.null, rest)
        rw [parseVal, skipWs_consP _ _ (by decide)]
        simp only [isPrefixOf_consP, isPrefixOf_nilP, List.drop_succ_cons, List.drop_zero]
        norm_num
      | bool b =>
        cases b with
        | true =>
          show parseVal (n + 1) ((('t' : Char)) :: 'r' :: 'u' :: 'e' :: rest) =
            some (.bool true, rest)
          rw [parseVal, skipWs_consP _ _ (by decide)]
          simp only [isPrefixOf_consP, isPrefixOf_nilP, List.drop_succ_cons, List.drop_zero]
          norm_num
          exact fun h => absurd h (by decide)
        | false =>
          show parseVal (n + 1) ((('f' : Char)) :: 'a' :: 'l' :: 's' :: 'e' :: rest) =
            some (.bool false, rest)
          rw [parseVal, skipWs_consP _ _ (by decide)]
          simp only [isPrefixOf_consP, isPrefixOf_nilP, List.drop_succ_cons, List.drop_zero]
          norm_num
          rw [if_neg (by decide), if_neg (by decide)]
      | num m e =>
        show parseVal (n + 1) (decChars m e ++ rest) = some (.num m e, rest)
        obtain ⟨c, cs, hic, hc⟩ := decChars_shape m e
        have hws : isJsonWs c = false := by
          rcases hc with h | h
          · subst h; decide
          · exact digit_not_ws h
        have hn' : ¬ c = 'n' := by
          rcases hc with h | h
          · subst h; decide
          · exact digit_ne h 'n' (by decide)
        have ht' : ¬ c = 't' := by
          rcases hc with h | h
          · subst h; decide
          · exact digit_ne h 't' (by decide)
        have hf' : ¬ c = 'f' := by
          rcases hc with h | h
          · subst h; decide
          · exact digit_ne h 'f' (by decide)
        have hq' : ¬ c = '"' := by
          rcases hc with h | h
          · subst h; decide
          · exact digit_ne h '"' (by decide)
        have hbr' : ¬ c = '[' := by
          rcases hc with h | h
          · subst h; decide
          · exact digit_ne h '[' (by decide)
        have hbc' : ¬ c = '{' := by
          rcases hc with h | h
          · subst h; decide
          · exact digit_ne h '{' (by decide)
        rw [hic, List.cons_append, parseVal, skipWs_consP _ _ hws]
        rw [isPrefixOf_cons_neq _ _ _ _ hn', isPrefixOf_cons_neq _ _ _ _ ht',
          isPrefixOf_cons_neq _ _ _ _ hf']
        simp only [Bool.false_eq_true, if_false]
        simp only [if_neg hq', if_neg hbr', if_neg hbc']
        rw [← List.cons_append, ← hic,
          parseNumTok_decChars m e rest (canon_num hcv) (goodRest_sep hrest)]
      | str s =>
        show parseVal (n + 1) ('"' :: ((escapeBody s.data ++ ['"']) ++ rest)) =
          some (.str s, rest)
        rw [parseVal, skipWs_consP _ _ (by decide)]
        rw [isPrefixOf_cons_neq _ _ _ _ (by decide), isPrefixOf_cons_neq _ _ _ _ (by decide),
          isPrefixOf_cons_neq _ _ _ _ (by decide)]
        simp only [Bool.false_eq_true, if_false, if_true]
        rw [List.append_assoc, List.singleton_append]
        rw [parseStringBody_escape s.data rest _ (by
          rw [List.length_append]; simp)]
      | arr vs =>
        show parseVal (n + 1) ('[' :: ((stringifyElemsChars vs ++ [']']) ++ rest)) =
          some (.arr vs, rest)
        rw [parseVal, skipWs_consP _ _ (by decide)]
        rw [isPrefixOf_cons_neq _ _ _ _ (by decide), isPrefixOf_cons_neq _ _ _ _ (by decide),
          isPrefixOf_cons_neq _ _ _ _ (by decide)]
        simp only [Bool.false_eq_true, if_false]
        simp only [if_neg (show ¬ ('[' : Char) = '"' by decide), if_pos rfl]
        cases vs with
        | nil =>
          show (match skipWs ((([] : List Char) ++ [']']) ++ rest) with
            | [] => none
            | c2 :: t2 =>
              if c2 = ']' then some (JSVal.arr [], t2)
              else
                match parseElems n (c2 :: t2) with
                | some (vs, r) => some (JSVal.arr vs, r)
                | none => none) = some (JSVal.arr [], rest)
          rw [List.nil_append, List.singleton_append, skipWs_consP _ _ (by decide)]
          simp only [if_pos rfl, if_true]
        | cons v vs' =>
          have hce : canonE (v :: vs') = true := by rw [canonV] at hcv; exact hcv
          rw [show stringifyElemsChars (v :: vs') =
            stringifyChars v ++ stringifyRestChars vs' from rfl]
          simp only [List.append_assoc, List.singleton_append]
          obtain ⟨c, cs, hsv, hws, hnb, _⟩ := stringify_head v
          rw [hsv, List.cons_append, skipWs_consP _ _ hws]
          simp only [if_neg hnb]
          rw [← List.cons_append, ← hsv]
          rw [ihE v vs' rest (by simp [szV, szE] at hsz ⊢; omega) (canonE_cons hce).1
            (canonE_cons hce).2 hrest]
          simp only [if_true]
      | obj ms =>
        show parseVal (n + 1) ('{' :: ((stringifyMembersChars ms ++ ['}']) ++ rest)) =
          some (.obj ms, rest)
        rw [parseVal, skipWs_consP _ _ (by decide)]
        rw [isPrefixOf_cons_neq _ _ _ _ (by decide), isPrefixOf_cons_neq _ _ _ _ (by decide),
          isPrefixOf_cons_neq _ _ _ _ (by decide)]
        simp only [Bool.false_eq_true, if_false]
        simp only [if_neg (show ¬ ('{' : Char) = '"' by decide),
          if_neg (show ¬ ('{' : Char) = '[' by decide), if_pos rfl]
        cases ms with
        | nil =>
          show (match skipWs ((([] : List Char) ++ ['}']) ++ rest) with
            | [] => none
            | c2 :: t2 =>
              if c2 = '}' then some (JSVal.obj [], t2)
              else
                match parseMembers n (c2 :: t2) with
                | some (ms, r) => some (JSVal.obj ms, r)
                | none => none) = some (JSVal.obj [], rest)
          rw [List.nil_append, List.singleton_append, skipWs_consP _ _ (by decide)]
          simp only [if_pos rfl, if_true]
        | cons mb ms' =>
          obtain ⟨k, v⟩ := mb
          have hcm : canonM ((k, v) :: ms') = true := by rw [canonV] at hcv; exact hcv
          rw [show stringifyMembersChars ((k, v) :: ms') =
            ('"' :: (escapeBody k.data ++ '"' :: ':' :: stringifyChars v)) ++
              stringifyMembersRestChars ms' from rfl]
          simp only [List.append_assoc, List.singleton_append, List.cons_append,
            List.nil_append]
          rw [skipWs_consP _ _ (by decide)]
          simp only [if_neg (show ¬ ('"' : Char) = '}' by decide), if_true]
          rw [show ('"' :: (escapeBody k.data ++ '"' :: ':' :: (stringifyChars v ++
              (stringifyMembersRestChars ms' ++ '}' :: rest)))) =
            ('"' :: (escapeBody k.data ++ '"' :: ':' :: stringifyChars v)) ++
              (stringifyMembersRestChars ms' ++ '}' :: rest) by simp]
          rw [ihM k v ms' rest (by simp [szV, szM] at hsz ⊢; omega) (canonM_cons hcm).1
            (canonM_cons hcm).2 hrest]
    · -- parseElems
      intro v vs rest hsz hcv hces hrest
      have hgood' : goodRest (stringifyRestChars vs ++ ']' :: rest) := by
        cases vs with
        | nil => exact Or.inr (Or.inl rfl)
        | cons v' vs'' => exact Or.inl rfl
      rw [parseElems, ihV v _ (by omega) hcv hgood']
      dsimp only
      rw [goodRest_skipWs hgood']
      cases vs with
      | nil =>
        rw [show stringifyRestChars ([] : List JSVal) = [] from rfl, List.nil_append]
        dsimp only
        rw [if_neg (show ¬ (']' : Char) = ',' by decide), if_pos rfl]
      | cons v' vs'' =>
        rw [show stringifyRestChars (v' :: vs'') =
          ',' :: (stringifyChars v' ++ stringifyRestChars vs'') from rfl]
        rw [List.cons_append]
        dsimp only
        rw [if_pos rfl, List.append_assoc]
        rw [ihE v' vs'' rest (by simp [szE] at hsz ⊢; omega) (canonE_cons hces).1
          (canonE_cons hces).2 hrest]
    · -- parseMembers
      intro k v ms rest hsz hcv hcms hrest
      have hgood' : goodRest (stringifyMembersRestChars ms ++ '}' :: rest) := by
        cases ms with
        | nil => exact Or.inr (Or.inr rfl)
        | cons mb ms2 => exact Or.inl rfl
      rw [parseMembers]
      rw [List.cons_append, skipWs_consP _ _ (by decide)]
      dsimp only
      rw [if_pos rfl]
      rw [show (escapeBody k.data ++ '"' :: ':' :: stringifyChars v) ++
          (stringifyMembersRestChars ms ++ '}' :: rest) =
        escapeBody k.data ++ '"' ::
          (':' :: (stringifyChars v ++ (stringifyMembersRestChars ms ++ '}' :: rest))) by simp]
      rw [parseStringBody_escape k.data _ _ (by rw [List.length_append]; simp)]
      dsimp only
      rw [skipWs_consP _ _ (by decide)]
      dsimp only
      rw [if_pos rfl]
      rw [ihV v _ (by omega) hcv hgood']
      dsimp only
      rw [goodRest_skipWs hgood']
      cases ms with
      | nil =>
        rw [show stringifyMembersRestChars ([] : List (String × JSVal)) = [] from rfl,
          List.nil_append]
        dsimp only
        rw [if_neg (show ¬ ('}' : Char) = ',' by decide), if_pos rfl]
      | cons mb ms2 =>
        obtain ⟨k2, v2⟩ := mb
        rw [show stringifyMembersRestChars ((k2, v2) :: ms2) =
          ',' :: (('"' :: (escapeBody k2.data ++ '"' :: ':' :: stringifyChars v2)) ++
            stringifyMembersRestChars ms2) from rfl]
        rw [List.cons_append]
        dsimp only
        rw [if_pos rfl, List.append_assoc]
        rw [ihM k2 v2 ms2 rest (by simp [szM] at hsz ⊢; omega) (canonM_cons hcms).1
          (canonM_cons hcms).2 hrest]

theorem sz_le_len : ∀ k : Nat,
    (∀ v, szV v ≤ k → szV v ≤ (stringifyChars v).length) ∧
    (∀ vs, szE vs ≤ k → szE vs ≤ (stringifyRestChars vs).length) ∧
    (∀ ms, szM ms ≤ k → szM ms ≤ (stringifyMembersRestChars ms).length) := by
  intro k
  induction k with
  | zero =>
    refine ⟨fun v hv => absurd hv (by have := szV_pos v; omega), ?_, ?_⟩
    · intro vs hvs
      cases vs with
      | nil => simp [szE, stringifyRestChars]
      | cons v vs' => simp [szE] at hvs
    · intro ms hms
      cases ms with
      | nil => simp [szM, stringifyMembersRestChars]
      | cons m ms' =>
        obtain ⟨k2, v⟩ := m
        simp [szM] at hms
  | succ k ih =>
    obtain ⟨ihV, ihE, ihM⟩ := ih
    have hE1 : ∀ vs, szE vs ≤ k → szE vs ≤ (stringifyElemsChars vs).length + 1 := by
      intro vs hvs
      cases vs with
      | nil => simp [szE]
      | cons v vs' =>
        have h1 : szV v ≤ k := by simp [szE] at hvs; omega
        have h2 : szE vs' ≤ k := by simp [szE] at hvs; omega
        have := ihV v h1
        have := ihE vs' h2
        simp only [stringifyElemsChars, szE, List.length_append]
        omega
    have hM1 : ∀ ms, szM ms ≤ k → szM ms ≤ (stringifyMembersChars ms).length + 1 := by
      intro ms hms
      cases ms with
      | nil => simp [szM]
      | cons m ms' =>
        obtain ⟨k2, v⟩ := m
        have h1 : szV v ≤ k := by simp [szM] at hms; omega
        have h2 : szM ms' ≤ k := by simp [szM] at hms; omega
        have := ihV v h1
        have := ihM ms' h2
        simp only [stringifyMembersChars, szM, List.length_append, List.length_cons]
        omega
    refine ⟨?_, ?_, ?_⟩
    · intro v hv
      cases v with
      | null => simp [szV, stringifyChars]
      | bool b => cases b <;> simp [szV, stringifyChars]
      | num m e =>
        obtain ⟨c, cs, hic, _⟩ := decChars_shape m e
        simp [szV, stringifyChars, hic]
      | str s => simp [szV, stringifyChars]
      | arr vs =>
        have h1 : szE vs ≤ k := by simp [szV] at hv; omega
        have := hE1 vs h1
        simp only [szV, stringifyChars, List.length_cons, List.length_append]
        simp
        omega
      | obj ms =>
        have h1 : szM ms ≤ k := by simp [szV] at hv; omega
        have := hM1 ms h1
        simp only [szV, stringifyChars, List.length_cons, List.length_append]
        simp
        omega
    · intro vs hvs
      cases vs with
      | nil => simp [szE, stringifyRestChars]
      | cons v vs' =>
        have h1 : szV v ≤ k := by simp [szE] at hvs; omega
        have h2 : szE vs' ≤ k := by simp [szE] at hvs; omega
        have := ihV v h1
        have := ihE vs' h2
        simp only [szE, stringifyRestChars, List.length_cons, List.length_append]
        omega
    · intro ms hms
      cases ms with
      | nil => simp [szM, stringifyMembersRestChars]
      | cons m ms' =>
        obtain ⟨k2, v⟩ := m
        have h1 : szV v ≤ k := by simp [szM] at hms; omega
        have h2 : szM ms' ≤ k := by simp [szM] at hms; omega
        have := ihV v h1
        have := ihM ms' h2
        simp only [szM, stringifyMembersRestChars, List.length_cons, List.length_append]
        omega

theorem parse_stringify (v : JSVal) (hcv : canonV v = true) :
    JSON.parse (JSON.stringify v) = some v := by
  have hsz : szV v ≤ (stringifyChars v).length + 1 := by
    have := (sz_le_len (szV v)).1 v (Nat.le_refl _)
    omega
  have h := (parse_roundtrip ((stringifyChars v).length + 1)).1 v [] hsz hcv trivial
  rw [List.append_nil] at h
  show (match parseVal ((stringifyChars v).length + 1) (stringifyChars v) with
    | some (v, r) => if skipWs r = [] then some v else none
    | none => none) = some v
  rw [h]
  dsimp only
  rw [skipWs_nil, if_pos rfl]

theorem find?_filter_ne (s : Storage) (k q : String) (h : ¬ q = k) :
    List.find? (fun p => p.1 == q) (List.filter (fun p => !(p.1 == k)) s) =
      List.find? (fun p => p.1 == q) s := by
  induction s with
  | nil => rfl
  | cons a as ih =>
    rw [List.filter_cons]
    by_cases ha : a.1 = k
    · rw [if_neg (by simp [ha])]
      rw [List.find?_cons, show (a.1 == q) = false from beq_eq_false_iff_ne.mpr (by rw [ha]; exact fun he => h he.symm)]
      exact ih
    · rw [if_pos (by simp [ha])]
      rw [List.find?_cons, List.find?_cons]
      cases haq : (a.1 == q) with
      | true => rfl
      | false => exact ih

theorem getItem_setItem (s : Storage) (k v q : String) :
    Storage.getItem (Storage.setItem s k v) q = if q = k then some v else Storage.getItem s q := by
  rw [Storage.setItem, Storage.getItem, List.find?_cons]
  by_cases h : q = k
  · rw [show ((k, v).1 == q) = true from beq_iff_eq.mpr h.symm, if_pos h]
    rfl
  · rw [show ((k, v).1 == q) = false from beq_eq_false_iff_ne.mpr (fun he => h he.symm), if_neg h]
    rw [show (List.find? (fun p => p.1 == q) (List.filter (fun p => !(p.1 == k)) s)).map Prod.snd =
      Storage.getItem (List.filter (fun p => !(p.1 == k)) s) q from rfl]
    rw [show Storage.getItem (List.filter (fun p => !(p.1 == k)) s) q =
      (List.find? (fun p => p.1 == q) (List.filter (fun p => !(p.1 == k)) s)).map Prod.snd from rfl]
    rw [find?_filter_ne s k q h]
    rfl

theorem getItem_filter (g : String → Bool) (s : Storage) (q : String) :
    Storage.getItem (List.filter (fun p => !(g p.1)) s) q =
      if g q then none else Storage.getItem s q := by
  induction s with
  | nil =>
    cases hq : g q <;> simp [Storage.getItem]
  | cons a as ih =>
    rw [List.filter_cons]
    by_cases hga : g a.1 = true
    · rw [if_neg (by simp [hga])]
      rw [ih]
      by_cases haq : a.1 = q
      · rw [if_pos (haq ▸ hga)]
        by_cases hgq : g q = true
        · rw [if_pos hgq]
        · exact absurd (haq ▸ hga) hgq
      · rw [show Storage.getItem (a :: as) q =
          (List.find? (fun p => p.1 == q) (a :: as)).map Prod.snd from rfl]
        rw [List.find?_cons, show (a.1 == q) = false from beq_eq_false_iff_ne.mpr haq]
        rfl
    · rw [if_pos (by simp [hga])]
      rw [show Storage.getItem ((a :: List.filter (fun p => !(g p.1)) as)) q =
        (List.find? (fun p => p.1 == q) (a :: List.filter (fun p => !(g p.1)) as)).map Prod.snd
          from rfl]
      rw [show Storage.getItem (a :: as) q =
        (List.find? (fun p => p.1 == q) (a :: as)).map Prod.snd from rfl]
      rw [List.find?_cons, List.find?_cons]
      cases haq : (a.1 == q) with
      | true =>
        have : ¬ g q = true := by
          rw [← beq_iff_eq.mp haq]
          exact hga
        rw [if_neg this]
      | false =>
        rw [show (List.find? (fun p => p.1 == q) (List.filter (fun p => !(g p.1)) as)).map
          Prod.snd = Storage.getItem (List.filter (fun p => !(g p.1)) as) q from rfl]
        rw [ih]
        rfl

theorem getItem_removeItem (s : Storage) (k q : String) :
    Storage.getItem (Storage.removeItem s k) q = if q = k then none else Storage.getItem s q := by
  have h := getItem_filter (fun x => x == k) s q
  simp only at h
  rw [Storage.removeItem, h]
  by_cases hqk : q = k
  · rw [if_pos (beq_iff_eq.mpr hqk), if_pos hqk]
  · rw [if_neg (by simp [hqk]), if_neg hqk]

theorem getItem_nil (q : String) : Storage.getItem [] q = none := rfl

theorem data_fullKey (d k : String) : (getFullKey d k).data = d.data ++ '_' :: k.data := by
  show (d ++ "_" ++ k).data = _
  rw [String.data_append, String.data_append]
  simp

theorem expKey_eq_append (d k : String) :
    getExpirationKey d k = getFullKey d k ++ EXPIRE := rfl

theorem EXPIRE_data_length : EXPIRE.data.length = 16 := rfl

theorem append_EXPIRE_cancel {f g : String} (h : f ++ EXPIRE = g ++ EXPIRE) : f = g := by
  have hd := congrArg String.data h
  rw [String.data_append, String.data_append] at hd
  exact stringDataEq (List.append_cancel_right hd)

theorem EXPIRE_suffix_append (f : String) : EXPIRE.data <:+ (f ++ EXPIRE).data := by
  rw [String.data_append]
  exact List.suffix_append _ _

theorem ne_append_EXPIRE_of_not_suffix {kk f : String} (h : ¬ EXPIRE.data <:+ kk.data) :
    f ++ EXPIRE ≠ kk := fun he => h (he ▸ EXPIRE_suffix_append f)

theorem self_ne_append_EXPIRE (f : String) : f ≠ f ++ EXPIRE := by
  intro h
  have hd := congrArg (fun s => s.data.length) h
  simp only [String.data_append, List.length_append] at hd
  rw [EXPIRE_data_length] at hd
  omega

theorem fullKey_ne_expKey (d k : String) : getFullKey d k ≠ getExpirationKey d k := by
  rw [expKey_eq_append]
  exact self_ne_append_EXPIRE _

theorem includesChars_nil (nd : List Char) : includesChars nd [] = nd.isEmpty := rfl

theorem includesChars_cons (nd : List Char) (c : Char) (cs : List Char) :
    includesChars nd (c :: cs) = (List.isPrefixOf nd (c :: cs) || includesChars nd cs) := rfl

theorem isPrefixOf_self (l : List Char) : List.isPrefixOf l l = true := by
  induction l with
  | nil => rfl
  | cons a as ih => rw [isPrefixOf_consP, ih, beq_self_eq_true]; rfl

theorem includesChars_nil_needle (l : List Char) : includesChars [] l = true := by
  cases l with
  | nil => rfl
  | cons c cs => rw [includesChars_cons, isPrefixOf_nilP]; rfl

theorem includesChars_append (nd h t : List Char) (hx : includesChars nd h = true) :
    includesChars nd (h ++ t) = true := by
  induction h with
  | nil =>
    rw [includesChars_nil] at hx
    have : nd = [] := by simpa using hx
    subst this
    rw [List.nil_append]
    exact includesChars_nil_needle t
  | cons c cs ih =>
    rw [includesChars_cons] at hx
    rw [List.cons_append, includesChars_cons]
    rcases Bool.or_eq_true_iff.mp hx with h1 | h1
    · rw [← List.cons_append, isPrefixOf_append_right _ _ _ h1]
      rfl
    · rw [ih h1, Bool.or_true]

theorem includesChars_middle (nd a b : List Char) : includesChars nd (a ++ (nd ++ b)) = true := by
  induction a with
  | nil =>
    rw [List.nil_append]
    cases nd with
    | nil => exact includesChars_nil_needle b
    | cons x xs =>
      rw [List.cons_append, includesChars_cons, ← List.cons_append,
        isPrefixOf_append_right _ _ _ (isPrefixOf_self (x :: xs))]
      rfl
  | cons c cs ih =>
    rw [List.cons_append, includesChars_cons, ih, Bool.or_true]

theorem removeFirstChar_cons (c : Char) (cs : List Char) (x : Char) :
    removeFirstChar (c :: cs) x = if c = x then cs else c :: removeFirstChar cs x := rfl

theorem removeFirstChar_append (ds : List Char) (u : Char) (h : u ∉ ds) :
    removeFirstChar (ds ++ [u]) u = ds := by
  induction ds with
  | nil => simp [removeFirstChar_cons]
  | cons c cs ih =>
    have hc : ¬ c = u := fun he => h (he ▸ List.mem_cons_self c cs)
    rw [List.cons_append, removeFirstChar_cons, if_neg hc,
      ih (fun hm => h (List.mem_cons_of_mem c hm))]

theorem digit_not_jsws {c : Char} (h : c.isDigit = true) : isJsWs c = false := by
  have hb := isDigit_toNat h
  simp only [isJsWs, Bool.or_eq_false_iff, beq_eq_false_iff_ne]
  refine ⟨⟨⟨⟨⟨⟨⟨digit_ne h ' ' (by decide), digit_ne h '\t' (by decide)⟩,
    digit_ne h '\n' (by decide)⟩, digit_ne h '\r' (by decide)⟩, ?_⟩, ?_⟩, ?_⟩, ?_⟩ <;> omega

theorem dropWhile_eq_self_of_head {p : Char → Bool} (l : List Char)
    (h : ∀ c, l.head? = some c → p c = false) : l.dropWhile p = l := by
  cases l with
  | nil => rfl
  | cons c cs => rw [List.dropWhile_cons, h c rfl]; simp

theorem trim_of_not_ws (l : List Char) (h : ∀ c ∈ l, isJsWs c = false) : trimJsWs l = l := by
  rw [trimJsWs]
  rw [dropWhile_eq_self_of_head l (fun c hc => h c (by
    cases l with
    | nil => cases hc
    | cons a as => simp at hc; simp [hc]))]
  rw [dropWhile_eq_self_of_head l.reverse (fun c hc => h c (by
    have : c ∈ l.reverse := by
      cases hr : l.reverse with
      | nil => rw [hr] at hc; cases hc
      | cons a as => rw [hr] at hc; simp at hc; simp [hr, hc]
    simpa using this))]
  exact List.reverse_reverse l

theorem digits_take2_ne (ds : List Char) (hd : ∀ c ∈ ds, c.isDigit = true) (y : Char)
    (hy : y.toNat < 48 ∨ 57 < y.toNat) : ¬ ds.take 2 = ['0', y] := by
  intro h
  cases ds with
  | nil => simp at h
  | cons c cs =>
    cases cs with
    | nil => simp at h
    | cons c2 cs2 =>
      have h2 : c2 = y := by simp [List.take] at h; exact h.2
      have hb := isDigit_toNat (hd c2 (by simp))
      subst h2
      omega

theorem jsNumber_digits (ds : List Char) (hne : ds ≠ []) (hd : ∀ c ∈ ds, c.isDigit = true) :
    jsNumberOfString (String.mk ds) = .val ((natOfDigits 0 ds : Nat) : Int) 1 := by
  have htrim : trimJsWs (String.mk ds).data = ds :=
    trim_of_not_ws ds (fun c hc => digit_not_jsws (hd c hc))
  rw [jsNumberOfString]
  simp only [htrim]
  rw [if_neg hne]
  rw [if_neg (not_or.mpr ⟨digits_take2_ne ds hd 'x' (by decide),
    digits_take2_ne ds hd 'X' (by decide)⟩)]
  rw [if_neg (not_or.mpr ⟨digits_take2_ne ds hd 'o' (by decide),
    digits_take2_ne ds hd 'O' (by decide)⟩)]
  rw [if_neg (not_or.mpr ⟨digits_take2_ne ds hd 'b' (by decide),
    digits_take2_ne ds hd 'B' (by decide)⟩)]
  cases ds with
  | nil => exact absurd rfl hne
  | cons c cs =>
    have hcd := hd c (by simp)
    have hb := isDigit_toNat hcd
    rw [show (match c :: cs with
      | [] => JSNumber.val 0 1
      | c :: t1 =>
        if c = '+' then parseUnsignedDec t1
        else if c = '-' then jsNeg (parseUnsignedDec t1)
        else parseUnsignedDec (c :: t1)) =
      (if c = '+' then parseUnsignedDec cs
        else if c = '-' then jsNeg (parseUnsignedDec cs)
        else parseUnsignedDec (c :: cs)) from rfl]
    rw [if_neg (digit_ne hcd '+' (by decide)), if_neg (digit_ne hcd '-' (by decide))]
    rw [parseUnsignedDec]
    rw [if_neg (show ¬ (c :: cs) = ['I', 'n', 'f', 'i', 'n', 'i', 't', 'y'] by
      intro he
      have hcI : c = 'I' := by simp at he; exact he.1
      subst hcI
      have h73 : ('I').toNat = 73 := rfl
      omega)]
    have hTD := takeWhile_digits_append (c :: cs) [] hd (fun x hx => nomatch hx)
    rw [List.append_nil] at hTD
    simp only [hTD.1, hTD.2]
    rw [if_neg (show ¬ (c :: cs) = [] by simp)]

theorem unit_not_digit : ∀ u ∈ (['h', 'd', 'm', 's'] : List Char), u.isDigit = false := by decide

theorem activeStore_setActive (st : LocalitState) (s : Storage) :
    activeStore (setActiveStore st s) = s := by
  cases h : st.storeIsLocal <;> simp [activeStore, setActiveStore, h]

theorem setActive_DOMAIN (st : LocalitState) (s : Storage) :
    (setActiveStore st s).DOMAIN = st.DOMAIN := by
  cases h : st.storeIsLocal <;> simp [setActiveStore, h]

theorem setActive_storeIsLocal (st : LocalitState) (s : Storage) :
    (setActiveStore st s).storeIsLocal = st.storeIsLocal := by
  cases h : st.storeIsLocal <;> simp [setActiveStore, h]

theorem setExpiration_grammar_write (now : Int) (st : LocalitState) (key : String)
    (ds : List Char) (u : Char) (hne : ds ≠ []) (hd : ∀ c ∈ ds, c.isDigit = true)
    (hu : u ∈ (['h', 'd', 'm', 's'] : List Char)) :
    setExpiration now st key (String.mk (ds ++ [u])) =
      setActiveStore st
        (Storage.setItem (activeStore st) (getExpirationKey st.DOMAIN key)
          (expirationValueString now u (.val ((natOfDigits 0 ds : Nat) : Int) 1))) := by
  have hnu : u ∉ ds := fun hm => by
    have h1 := hd u hm
    have h2 := unit_not_digit u hu
    rw [h1] at h2
    cases h2
  rw [setExpiration]
  rw [show (String.mk (ds ++ [u])).data = ds ++ [u] from rfl]
  rw [List.getLast?_concat]
  dsimp only
  rw [removeFirstChar_append ds u hnu]
  rw [jsNumber_digits ds hne hd]
  rw [if_neg (show ¬ ((ds ++ [u]).length < 2 ∨ u ∉ (['h', 'd', 'm', 's'] : List Char) ∨
      (JSNumber.val ((natOfDigits 0 ds : Nat) : Int) 1).isNaN = true) by
    push_neg
    refine ⟨?_, hu, by rw [show (JSNumber.val ((natOfDigits 0 ds : Nat) : Int) 1).isNaN =
      false from rfl]; simp⟩
    rw [List.length_append]
    have : 1 ≤ ds.length := by
      cases ds with
      | nil => exact absurd rfl hne
      | cons a as => simp
    simp
    omega)]

theorem storeInvAux_nil : storeInvAux [] := by
  intro f hf
  exact absurd (getItem_nil _) hf

theorem storeInvAux_setItem_value {s : Storage} {kk v : String}
    (hk : ¬ EXPIRE.data <:+ kk.data) (hJ : storeInvAux s) :
    storeInvAux (Storage.setItem s kk v) := by
  intro f hf
  rw [getItem_setItem, if_neg (ne_append_EXPIRE_of_not_suffix hk)] at hf
  obtain ⟨h1, h2⟩ := hJ f hf
  refine ⟨?_, h2⟩
  rw [getItem_setItem]
  by_cases hfk : f = kk
  · rw [if_pos hfk]; simp
  · rw [if_neg hfk]; exact h1

theorem storeInvAux_setItem_exp {s : Storage} {f0 v : String}
    (hf0 : ¬ EXPIRE.data <:+ f0.data) (hpres : Storage.getItem s f0 ≠ none)
    (hJ : storeInvAux s) : storeInvAux (Storage.setItem s (f0 ++ EXPIRE) v) := by
  intro f hf
  rw [getItem_setItem] at hf
  by_cases heq : f = f0
  · subst heq
    refine ⟨?_, hf0⟩
    rw [getItem_setItem, if_neg (self_ne_append_EXPIRE f)]
    exact hpres
  · have hne : ¬ (f ++ EXPIRE = f0 ++ EXPIRE) := fun he => heq (append_EXPIRE_cancel he)
    rw [if_neg hne] at hf
    obtain ⟨h1, h2⟩ := hJ f hf
    refine ⟨?_, h2⟩
    rw [getItem_setItem]
    by_cases hfe : f = f0 ++ EXPIRE
    · rw [if_pos hfe]; simp
    · rw [if_neg hfe]; exact h1

theorem storeInvAux_remove {s : Storage} (full : String) (hJ : storeInvAux s) :
    storeInvAux (Storage.removeItem (Storage.removeItem s full) (full ++ EXPIRE)) := by
  intro f hf
  rw [getItem_removeItem, getItem_removeItem] at hf
  by_cases h1 : f ++ EXPIRE = full ++ EXPIRE
  · rw [if_pos h1] at hf; exact absurd rfl hf
  · rw [if_neg h1] at hf
    by_cases h2 : f ++ EXPIRE = full
    · rw [if_pos h2] at hf; exact absurd rfl hf
    · rw [if_neg h2] at hf
      obtain ⟨hp, hs⟩ := hJ f hf
      refine ⟨?_, hs⟩
      rw [getItem_removeItem, getItem_removeItem]
      have hfe : ¬ f = full ++ EXPIRE := fun he => hs (he ▸ EXPIRE_suffix_append full)
      have hff : ¬ f = full := fun he => h1 (by rw [he])
      rw [if_neg hfe, if_neg hff]
      exact hp

theorem storeInvAux_filter {s : Storage} (g : String → Bool)
    (hmono : ∀ x : String, g x = true → g (x ++ EXPIRE) = true) (hJ : storeInvAux s) :
    storeInvAux (List.filter (fun p => !(g p.1)) s) := by
  intro f hf
  rw [getItem_filter] at hf
  by_cases hg : g (f ++ EXPIRE) = true
  · rw [if_pos hg] at hf; exact absurd rfl hf
  · rw [if_neg hg] at hf
    obtain ⟨hp, hs⟩ := hJ f hf
    refine ⟨?_, hs⟩
    rw [getItem_filter]
    rw [if_neg (fun hgf => hg (hmono f hgf))]
    exact hp

theorem stateInv_setActive {st : LocalitState} {s : Storage}
    (hs : storeInvAux s) (hI : stateInv st) : stateInv (setActiveStore st s) := by
  by_cases hflag : st.storeIsLocal = true
  · rw [setActiveStore, if_pos hflag]; exact ⟨hs, hI.2⟩
  · rw [setActiveStore, if_neg hflag]; exact ⟨hI.1, hs⟩

theorem stateInv_active {st : LocalitState} (hI : stateInv st) :
    storeInvAux (activeStore st) := by
  by_cases hflag : st.storeIsLocal = true
  · rw [activeStore, if_pos hflag]; exact hI.1
  · rw [activeStore, if_neg hflag]; exact hI.2

theorem remove_stateInv (st : LocalitState) (k : String) (hI : stateInv st) :
    stateInv (localit.remove st k) := by
  rw [localit.remove, expKey_eq_append]
  exact stateInv_setActive (storeInvAux_remove _ (stateInv_active hI)) hI

theorem get_some_stateInv (now : Int) (st : LocalitState) (k : String)
    (p : JSVal × LocalitState) (hg : localit.get now st k = some p) (hI : stateInv st) :
    stateInv p.2 := by
  rw [localit.get] at hg
  cases hcond : (if hasExpirationDate st k then hasExpired now st k else some false) with
  | none => rw [hcond] at hg; cases hg
  | some b =>
    rw [hcond] at hg
    cases b with
    | true =>
      dsimp only at hg
      have hp := Option.some.inj hg
      rw [← hp]
      exact remove_stateInv st k hI
    | false =>
      dsimp only at hg
      have hp := Option.some.inj hg
      rw [← hp]
      cases Storage.getItem (activeStore st) (getFullKey st.DOMAIN k) with
      | none => exact hI
      | some raw =>
        dsimp only
        cases JSON.parse raw with
        | none => exact hI
        | some v => exact hI

theorem setExpiration_stateInv (now : Int) (st : LocalitState) (k espec : String)
    (hkey : ¬ EXPIRE.data <:+ (getFullKey st.DOMAIN k).data)
    (hpres : Storage.getItem (activeStore st) (getFullKey st.DOMAIN k) ≠ none)
    (hI : stateInv st) : stateInv (setExpiration now st k espec) := by
  rw [setExpiration]
  cases hgl : espec.data.getLast? with
  | none => exact hI
  | some tk =>
    dsimp only
    by_cases hcond : (espec.data.length < 2 ∨ tk ∉ (['h', 'd', 'm', 's'] : List Char) ∨
        (jsNumberOfString (String.mk (removeFirstChar espec.data tk))).isNaN = true)
    · rw [if_pos hcond]; exact hI
    · rw [if_neg hcond]
      rw [expKey_eq_append]
      exact stateInv_setActive (storeInvAux_setItem_exp hkey hpres (stateInv_active hI)) hI

theorem set_stateInv (now : Int) (st : LocalitState) (k : String) (v : JSVal)
    (e : Option String) (hkey : ¬ EXPIRE.data <:+ (getFullKey st.DOMAIN k).data)
    (hI : stateInv st) : stateInv (localit.set now st k v e) := by
  rw [localit.set]
  by_cases hk0 : k = ""
  · rw [if_pos hk0]; exact hI
  · rw [if_neg hk0]
    have hI1 : stateInv (setActiveStore st
        (Storage.setItem (activeStore st) (getFullKey st.DOMAIN k) (toStorageString v))) :=
      stateInv_setActive (storeInvAux_setItem_value hkey (stateInv_active hI)) hI
    cases e with
    | none => exact hI1
    | some espec =>
      dsimp only
      by_cases hes : espec = ""
      · rw [if_pos hes]; exact hI1
      · rw [if_neg hes]
        apply setExpiration_stateInv
        · rw [setActive_DOMAIN]; exact hkey
        · rw [setActive_DOMAIN, activeStore_setActive, getItem_setItem, if_pos rfl]
          simp
        · exact hI1

theorem strIncludes_def (hay needle : String) :
    localit.strIncludes hay needle = includesChars needle.data hay.data := rfl

theorem clearDomain_stateInv (st : LocalitState) (dopt : Option String) (hI : stateInv st) :
    stateInv (localit.clearDomain st dopt) := by
  rw [localit.clearDomain]
  apply stateInv_setActive _ hI
  apply storeInvAux_filter
    (fun x => localit.strIncludes x (dopt.getD st.DOMAIN ++ "_")) _ (stateInv_active hI)
  intro x hx
  simp only [strIncludes_def] at hx ⊢
  rw [String.data_append]
  exact includesChars_append _ _ _ hx

theorem bust_stateInv (st : LocalitState) (hI : stateInv st) : stateInv (localit.bust st) := by
  rw [localit.bust]
  apply stateInv_setActive _ hI
  rw [show Storage.clear (activeStore st) = [] from rfl]
  exact storeInvAux_nil

theorem applyOp_stateInv (op : Op) (st : LocalitState) (hop : goodOp st.DOMAIN op = true)
    (hI : stateInv st) : stateInv (applyOp st op) := by
  cases op with
  | set k v e now =>
    have hkey : ¬ EXPIRE.data <:+ (getFullKey st.DOMAIN k).data := by
      rw [goodOp, Bool.not_eq_true'] at hop
      intro hsuf
      rw [endsWithExpire, List.isSuffixOf_iff_suffix.mpr hsuf] at hop
      cases hop
    exact set_stateInv now st k v e hkey hI
  | get k now =>
    show stateInv (match localit.get now st k with | none => st | some p => p.2)
    cases hg : localit.get now st k with
    | none => exact hI
    | some p => exact get_some_stateInv now st k p hg hI
  | remove k => exact remove_stateInv st k hI
  | getAndRemove k now =>
    show stateInv (match localit.getAndRemove now st k with | none => st | some p => p.2)
    cases hga : localit.getAndRemove now st k with
    | none => exact hI
    | some q =>
      rw [localit.getAndRemove] at hga
      cases hg : localit.get now st k with
      | none => rw [hg] at hga; cases hga
      | some p =>
        rw [hg] at hga
        dsimp only at hga
        have hq := Option.some.inj hga
        rw [← hq]
        exact remove_stateInv _ k (get_some_stateInv now st k p hg hI)
  | clearDomain dopt => exact clearDomain_stateInv st dopt hI
  | bust => exact bust_stateInv st hI

theorem setExpiration_DOMAIN (now : Int) (st : LocalitState) (k e : String) :
    (setExpiration now st k e).DOMAIN = st.DOMAIN := by
  rw [setExpiration]
  cases hgl : e.data.getLast? with
  | none => rfl
  | some tk =>
    dsimp only
    by_cases hcond : (e.data.length < 2 ∨ tk ∉ (['h', 'd', 'm', 's'] : List Char) ∨
        (jsNumberOfString (String.mk (removeFirstChar e.data tk))).isNaN = true)
    · rw [if_pos hcond]
    · rw [if_neg hcond]; exact setActive_DOMAIN _ _

theorem set_DOMAIN (now : Int) (st : LocalitState) (k : String) (v : JSVal)
    (e : Option String) : (localit.set now st k v e).DOMAIN = st.DOMAIN := by
  rw [localit.set]
  by_cases hk0 : k = ""
  · rw [if_pos hk0]
  · rw [if_neg hk0]
    cases e with
    | none => exact setActive_DOMAIN _ _
    | some espec =>
      dsimp only
      by_cases hes : espec = ""
      · rw [if_pos hes]; exact setActive_DOMAIN _ _
      · rw [if_neg hes, setExpiration_DOMAIN, setActive_DOMAIN]

theorem remove_DOMAIN (st : LocalitState) (k : String) :
    (localit.remove st k).DOMAIN = st.DOMAIN := by
  rw [localit.remove]; exact setActive_DOMAIN _ _

theorem get_some_DOMAIN (now : Int) (st : LocalitState) (k : String)
    (p : JSVal × LocalitState) (hg : localit.get now st k = some p) :
    p.2.DOMAIN = st.DOMAIN := by
  rw [localit.get] at hg
  cases hcond : (if hasExpirationDate st k then hasExpired now st k else some false) with
  | none => rw [hcond] at hg; cases hg
  | some b =>
    rw [hcond] at hg
    cases b with
    | true =>
      dsimp only at hg
      have hp := Option.some.inj hg
      rw [← hp]
      exact remove_DOMAIN st k
    | false =>
      dsimp only at hg
      have hp := Option.some.inj hg
      rw [← hp]
      cases Storage.getItem (activeStore st) (getFullKey st.DOMAIN k) with
      | none => rfl
      | some raw =>
        dsimp only
        cases JSON.parse raw with
        | none => rfl
        | some v => rfl

theorem applyOp_DOMAIN (op : Op) (st : LocalitState) :
    (applyOp st op).DOMAIN = st.DOMAIN := by
  cases op with
  | set k v e now => exact set_DOMAIN now st k v e
  | get k now =>
    show (match localit.get now st k with | none => st | some p => p.2).DOMAIN = st.DOMAIN
    cases hg : localit.get now st k with
    | none => rfl
    | some p => exact get_some_DOMAIN now st k p hg
  | remove k => exact remove_DOMAIN st k
  | getAndRemove k now =>
    show (match localit.getAndRemove now st k with
      | none => st | some p => p.2).DOMAIN = st.DOMAIN
    cases hga : localit.getAndRemove now st k with
    | none => rfl
    | some q =>
      rw [localit.getAndRemove] at hga
      cases hg : localit.get now st k with
      | none => rw [hg] at hga; cases hga
      | some p =>
        rw [hg] at hga
        dsimp only at hga
        have hq := Option.some.inj hga
        rw [← hq]
        show (localit.remove p.2 k).DOMAIN = st.DOMAIN
        rw [remove_DOMAIN]
        exact get_some_DOMAIN now st k p hg
  | clearDomain dopt => rw [applyOp, localit.clearDomain]; exact setActive_DOMAIN _ _
  | bust => rw [applyOp, localit.bust]; exact setActive_DOMAIN _ _

theorem runOps_stateInv :
    ∀ (ops : List Op) (st : LocalitState), (∀ op ∈ ops, goodOp st.DOMAIN op = true) →
      stateInv st → stateInv (runOps st ops) := by
  intro ops
  induction ops with
  | nil => intro st _ hI; exact hI
  | cons op ops ih =>
    intro st hops hI
    rw [show runOps st (op :: ops) = runOps (applyOp st op) ops from rfl]
    apply ih
    · intro o ho
      rw [applyOp_DOMAIN]
      exact hops o (List.mem_cons_of_mem _ ho)
    · exact applyOp_stateInv op st (hops op (List.mem_cons_self _ _)) hI

theorem initState_stateInv (d : String) : stateInv (initState d) :=
  ⟨storeInvAux_nil, storeInvAux_nil⟩

/-- Claim C4, counterexample: the invariant "an Expiration Key never
exists without its Stored Value" is violated in a state reachable by a
single public `set`: from the empty backend under the empty domain,
`set("a_expiration_date", "hello")` writes the Full Key
`_a_expiration_date`, which is exactly the Expiration Key of the logical
key `"a"`, while the Stored Value `_a` is absent. -/
theorem claim_C4_counterexample :
    ¬ expirationImpliesValue (activeStore (runOps (initState "")
      [Op.set "a_expiration_date" (.str "hello") none 0])) := by
  intro h
  have h2 := h "_a" (fun he => by
    rw [show ("_a" ++ EXPIRE) = "_a_expiration_date" from rfl] at he
    exact absurd he (by decide))
  exact h2 rfl

/-- Claim C4 (amended): in every Backend state reachable through the
public operations (set, get, remove, getAndRemove, clearDomain, bust)
starting from an empty backend, provided that no `set` call uses a
logical key whose derived Full Key ends in the suffix
`_expiration_date`, the presence of the Expiration Key for a full key
implies the presence of the corresponding Stored Value (a value without
an Expiration Key remains allowed). Without that proviso the invariant
fails, because a `set` can write a value whose Full Key coincides with
another key's Expiration Key (see the counterexample). -/
theorem claim_C4 (d : String) (ops : List Op)
    (hops : ∀ op ∈ ops, goodOp d op = true) :
    expirationImpliesValue (activeStore (runOps (initState d) ops)) := by
  have hI := runOps_stateInv ops (initState d) (fun op ho => hops op ho) (initState_stateInv d)
  intro f hf
  exact ((stateInv_active hI) f hf).1

/-- Claim C4, witness: a concrete run (a `set` with an expiration spec
followed by an expired `get`) satisfying the hypotheses, with the
invariant holding at the resulting state. -/
theorem claim_C4_witness :
    (∀ op ∈ ([Op.set "a" (.str "x") (some "5s") 0, Op.get "a" 99999] : List Op),
      goodOp "" op = true) ∧
    expirationImpliesValue (activeStore (runOps (initState "")
      [Op.set "a" (.str "x") (some "5s") 0, Op.get "a" 99999])) :=
  ⟨by decide, claim_C4 "" _ (by decide)⟩

theorem specGrammar_decomp (spec : String) (h : specExpirationGrammar spec = true) :
    ∃ ds u, spec.data = ds ++ [u] ∧ ds ≠ [] ∧ (∀ c ∈ ds, c.isDigit = true) ∧
      u ∈ (['h', 'd', 'm', 's'] : List Char) := by
  rw [specExpirationGrammar] at h
  cases hgl : spec.data.getLast? with
  | none => rw [hgl] at h; cases h
  | some u =>
    rw [hgl] at h
    have hne : spec.data ≠ [] := by intro h0; rw [h0] at hgl; cases hgl
    simp only [Bool.and_eq_true, decide_eq_true_eq, Bool.or_eq_true, beq_iff_eq] at h
    refine ⟨spec.data.dropLast, u, ?_, h.1.1, ?_, ?_⟩
    · have hsplit := List.dropLast_append_getLast hne
      have hg2 : spec.data.getLast hne = u := by
        rw [List.getLast?_eq_getLast spec.data hne] at hgl
        exact (Option.some.injEq _ _).mp hgl
      rw [← hg2]
      exact hsplit.symm
    · intro c hc
      exact List.all_eq_true.mp h.1.2 c hc
    · have h2 := h.2
      simp only [List.mem_cons, List.mem_singleton]
      tauto

/-- Claim C2, counterexample: the spec "-3s" does not match the
digits-then-unit grammar, yet `setExpiration` accepts it and writes an
expiration entry (at time 0, the entry "-3000"): the accepted set is
strictly larger than the grammar, because `Number` accepts signs,
fractions, exponents and radix prefixes. -/
theorem claim_C2_counterexample :
    specExpirationGrammar "-3s" = false ∧
    setExpiration 0 (initState "") "a" "-3s" =
      setActiveStore (initState "")
        (Storage.setItem (activeStore (initState "")) (getExpirationKey "" "a") "-3000") :=
  ⟨rfl, rfl⟩

/-- Claim C2 (amended): `setExpiration` writes an expiration entry for
every spec consisting of one or more digits followed by a unit in
`{s, m, h, d}`. The converse direction of the claim fails: the code's
acceptance condition (length at least 2, last character a unit, remainder
converting to a non-NaN JS number) also accepts other strings, e.g.
"-3s" (see the counterexample). -/
theorem claim_C2 (now : Int) (st : LocalitState) (key spec : String)
    (h : specExpirationGrammar spec = true) :
    ∃ t : String, setExpiration now st key spec =
      setActiveStore st
        (Storage.setItem (activeStore st) (getExpirationKey st.DOMAIN key) t) ∧
      Storage.getItem (activeStore (setExpiration now st key spec))
        (getExpirationKey st.DOMAIN key) = some t := by
  obtain ⟨ds, u, hdata, hne, hd, hu⟩ := specGrammar_decomp spec h
  have hspec : spec = String.mk (ds ++ [u]) := stringDataEq (by rw [hdata])
  refine ⟨expirationValueString now u (.val ((natOfDigits 0 ds : Nat) : Int) 1), ?_, ?_⟩
  · rw [hspec]
    exact setExpiration_grammar_write now st key ds u hne hd hu
  · rw [hspec, setExpiration_grammar_write now st key ds u hne hd hu,
      activeStore_setActive, getItem_setItem, if_pos rfl]

/-- Claim C2, witness: the grammar-conforming spec "5s" writes an
expiration entry. -/
theorem claim_C2_witness :
    specExpirationGrammar "5s" = true ∧
    (∃ t : String, setExpiration 0 (initState "") "k" "5s" =
      setActiveStore (initState "")
        (Storage.setItem (activeStore (initState ""))
          (getExpirationKey (initState "").DOMAIN "k") t) ∧
      Storage.getItem (activeStore (setExpiration 0 (initState "") "k" "5s"))
        (getExpirationKey (initState "").DOMAIN "k") = some t) :=
  ⟨rfl, claim_C2 0 (initState "") "k" "5s" rfl⟩

/-- Claim C3: for every key whose Expiration Key holds a serialized
numeric instant whose `Date` time value lies strictly in the past, `get`
removes both the Full Key and the Expiration Key from the Backend and
returns the null sentinel (and in particular does not throw). -/
theorem claim_C3 (now m : Int) (e : Nat) (st : LocalitState) (key s : String)
    (h1 : Storage.getItem (activeStore st) (getExpirationKey st.DOMAIN key) = some s)
    (h2 : JSON.parse s = some (.num m e)) (h3 : Int.tdiv m ((10 : Int) ^ e) < now) :
    localit.get now st key = some (JSVal.null, localit.remove st key) ∧
    Storage.getItem (activeStore (localit.remove st key))
      (getFullKey st.DOMAIN key) = none ∧
    Storage.getItem (activeStore (localit.remove st key))
      (getExpirationKey st.DOMAIN key) = none := by
  have hhd : hasExpirationDate st key = true := by
    rw [hasExpirationDate, h1]
    rfl
  have hhe : hasExpired now st key = some true := by
    rw [hasExpired, h1]
    dsimp only
    rw [h2]
    dsimp only
    rw [show dateMs (JSVal.num m e) = some (Int.tdiv m ((10 : Int) ^ e)) from rfl]
    dsimp only
    rw [decide_eq_true (show now > Int.tdiv m ((10 : Int) ^ e) by omega)]
  refine ⟨?_, ?_, ?_⟩
  · rw [localit.get, if_pos hhd, hhe]
  · rw [localit.remove, activeStore_setActive, getItem_removeItem, getItem_removeItem]
    rw [if_neg (fullKey_ne_expKey st.DOMAIN key), if_pos rfl]
  · rw [localit.remove, activeStore_setActive, getItem_removeItem]
    rw [if_pos rfl]

/-- Claim C3, witness: a concrete state in which key "k" carries the
expiration instant 5, read at time 10. -/
theorem claim_C3_witness :
    Storage.getItem (activeStore (⟨"", true, [("_k", "x"), ("_k_expiration_date", "5")], []⟩ :
        LocalitState))
      (getExpirationKey "" "k") = some "5" ∧
    JSON.parse "5" = some (.num 5 0) ∧ Int.tdiv 5 ((10 : Int) ^ (0 : Nat)) < 10 ∧
    (localit.get 10 (⟨"", true, [("_k", "x"), ("_k_expiration_date", "5")], []⟩ : LocalitState)
        "k" =
      some (JSVal.null, localit.remove
        (⟨"", true, [("_k", "x"), ("_k_expiration_date", "5")], []⟩ : LocalitState) "k")) :=
  ⟨rfl, rfl, by decide,
    (claim_C3 10 5 0 ⟨"", true, [("_k", "x"), ("_k_expiration_date", "5")], []⟩ "k" "5"
      rfl rfl (by decide)).1⟩

/-- Claim C5: for every domain string, `clearDomain` removes exactly the
Backend keys containing the substring `<domain>_` (a substring match, not
a prefix match) and leaves every other key unchanged; with no argument it
uses the current Domain. -/
theorem claim_C5 (st : LocalitState) (d : String) :
    (∀ key : String, Storage.getItem (activeStore (localit.clearDomain st (some d))) key =
      if localit.strIncludes key (d ++ "_") = true then none
      else Storage.getItem (activeStore st) key) ∧
    localit.clearDomain st none = localit.clearDomain st (some st.DOMAIN) := by
  constructor
  · intro key
    rw [localit.clearDomain, activeStore_setActive]
    exact getItem_filter (fun x => localit.strIncludes x (d ++ "_")) (activeStore st) key
  · rfl

/-- Claim C6: `set` with the empty (falsy) key performs no Backend write
at all: the whole state, both backends included, is unchanged; the
failure is reported only on the console. -/
theorem claim_C6 (now : Int) (st : LocalitState) (v : JSVal) (e : Option String) :
    localit.set now st "" v e = st := by
  rw [localit.set, if_pos rfl]

/-- Claim C7: for every key without a past expiration — the Expiration
Key entry is absent, or holds a serialized numeric instant whose `Date`
time value is not in the past — `get` reads the Full Key without
throwing; a parseable raw string yields the parsed value, an unparseable
one is returned raw, and a missing entry reads as the null sentinel; the
state is unchanged in all three cases. -/
theorem claim_C7 (now : Int) (st : LocalitState) (key : String)
    (h : Storage.getItem (activeStore st) (getExpirationKey st.DOMAIN key) = none ∨
      ∃ (s : String) (m : Int) (e : Nat),
        Storage.getItem (activeStore st) (getExpirationKey st.DOMAIN key) = some s ∧
        JSON.parse s = some (.num m e) ∧ ¬ Int.tdiv m ((10 : Int) ^ e) < now) :
    (Storage.getItem (activeStore st) (getFullKey st.DOMAIN key) = none →
      localit.get now st key = some (JSVal.null, st)) ∧
    (∀ raw v, Storage.getItem (activeStore st) (getFullKey st.DOMAIN key) = some raw →
      JSON.parse raw = some v → localit.get now st key = some (v, st)) ∧
    (∀ raw, Storage.getItem (activeStore st) (getFullKey st.DOMAIN key) = some raw →
      JSON.parse raw = none → localit.get now st key = some (JSVal.str raw, st)) := by
  have hcond : (if hasExpirationDate st key then hasExpired now st key else some false) =
      some false := by
    rcases h with h | ⟨s, m, e, hs, hjp, ht⟩
    · have hhd : hasExpirationDate st key = false := by
        rw [hasExpirationDate, h]
        rfl
      rw [if_neg (show ¬ hasExpirationDate st key = true by
        rw [hhd]; exact Bool.false_ne_true)]
    · have hhd : hasExpirationDate st key = true := by
        rw [hasExpirationDate, hs]
        rfl
      have hhe : hasExpired now st key = some false := by
        rw [hasExpired, hs]
        dsimp only
        rw [hjp]
        dsimp only
        rw [show dateMs (JSVal.num m e) = some (Int.tdiv m ((10 : Int) ^ e)) from rfl]
        dsimp only
        rw [decide_eq_false (show ¬ now > Int.tdiv m ((10 : Int) ^ e) by omega)]
      rw [if_pos hhd, hhe]
  refine ⟨?_, ?_, ?_⟩
  · intro hgi
    rw [localit.get, hcond]
    dsimp only
    rw [hgi]
  · intro raw v hgi hjp
    rw [localit.get, hcond]
    dsimp only
    rw [hgi]
    dsimp only
    rw [hjp]
  · intro raw hgi hjp
    rw [localit.get, hcond]
    dsimp only
    rw [hgi]
    dsimp only
    rw [hjp]

/-- Claim C7, witness: a backend holding the raw string "true" under the
Full Key and no expiration entry; `get` parses and returns the boolean
with the state unchanged. -/
theorem claim_C7_witness :
    Storage.getItem (activeStore (⟨"", true, [("_k", "true")], []⟩ : LocalitState))
      (getExpirationKey "" "k") = none ∧
    Storage.getItem (activeStore (⟨"", true, [("_k", "true")], []⟩ : LocalitState))
      (getFullKey "" "k") = some "true" ∧
    JSON.parse "true" = some (.bool true) ∧
    localit.get 0 (⟨"", true, [("_k", "true")], []⟩ : LocalitState) "k" =
      some (JSVal.bool true, (⟨"", true, [("_k", "true")], []⟩ : LocalitState)) :=
  ⟨rfl, rfl, rfl,
    (claim_C7 0 (⟨"", true, [("_k", "true")], []⟩ : LocalitState) "k" (Or.inl rfl)).2.1
      "true" (JSVal.bool true) rfl rfl⟩

/-- Claim C8: `setDomain` sets the Domain unconditionally and changes
nothing else: backend selection and both backends' contents are
untouched. -/
theorem claim_C8 (st : LocalitState) (d : String) :
    (localit.setDomain st d).DOMAIN = d ∧
    (localit.setDomain st d).storeIsLocal = st.storeIsLocal ∧
    (localit.setDomain st d).localStorage = st.localStorage ∧
    (localit.setDomain st d).sessionStorage = st.sessionStorage :=
  ⟨rfl, rfl, rfl, rfl⟩

/-- Claim C9: a `set` without an expiration spec overwrites the Stored
Value but leaves an existing Expiration Key in place (`set` never deletes
an expiration entry). -/
theorem claim_C9 (now : Int) (st : LocalitState) (k : String) (v : JSVal) (hk : k ≠ "") :
    Storage.getItem (activeStore (localit.set now st k v none))
        (getExpirationKey st.DOMAIN k) =
      Storage.getItem (activeStore st) (getExpirationKey st.DOMAIN k) ∧
    Storage.getItem (activeStore (localit.set now st k v none)) (getFullKey st.DOMAIN k) =
      some (toStorageString v) := by
  rw [localit.set, if_neg hk]
  dsimp only
  rw [activeStore_setActive]
  constructor
  · rw [getItem_setItem, if_neg (fun he => fullKey_ne_expKey st.DOMAIN k he.symm)]
  · rw [getItem_setItem, if_pos rfl]

/-- Claim C9, witness: overwriting a key that carries an expiration entry
leaves the entry in place. -/
theorem claim_C9_witness :
    ("k" : String) ≠ "" ∧
    Storage.getItem
        (activeStore (localit.set 0
          (⟨"", true, [("_k", "x"), ("_k_expiration_date", "5")], []⟩ : LocalitState)
          "k" (.str "y") none))
        (getExpirationKey "" "k") =
      Storage.getItem
        (activeStore (⟨"", true, [("_k", "x"), ("_k_expiration_date", "5")], []⟩ :
          LocalitState))
        (getExpirationKey "" "k") :=
  ⟨by decide,
    (claim_C9 0 ⟨"", true, [("_k", "x"), ("_k_expiration_date", "5")], []⟩ "k" (.str "y")
      (by decide)).1⟩

/-- Claim C10: when the current Domain is the empty string, `clearDomain()`
with no argument removes every Backend key containing the substring "_";
since every Full Key and every Expiration Key the library derives
contains an underscore, this deletes the library's entries under every
domain. -/
theorem claim_C10 (st : LocalitState) (hdom : st.DOMAIN = "") :
    (∀ key : String, localit.strIncludes key "_" = true →
      Storage.getItem (activeStore (localit.clearDomain st none)) key = none) ∧
    (∀ d' k' : String,
      Storage.getItem (activeStore (localit.clearDomain st none)) (getFullKey d' k') = none ∧
      Storage.getItem (activeStore (localit.clearDomain st none))
        (getExpirationKey d' k') = none) := by
  have hmain : ∀ key : String,
      Storage.getItem (activeStore (localit.clearDomain st none)) key =
        if localit.strIncludes key (st.DOMAIN ++ "_") = true then none
        else Storage.getItem (activeStore st) key := by
    intro key
    rw [localit.clearDomain, activeStore_setActive]
    exact getItem_filter (fun x => localit.strIncludes x (st.DOMAIN ++ "_")) (activeStore st) key
  have hfull : ∀ d' k' : String, localit.strIncludes (getFullKey d' k') "_" = true := by
    intro d' k'
    rw [strIncludes_def, data_fullKey]
    rw [show ("_" : String).data = ['_'] from rfl]
    exact includesChars_middle ['_'] d'.data k'.data
  constructor
  · intro key hk
    rw [hmain key, hdom, show (("" : String) ++ "_") = "_" from rfl, if_pos hk]
  · intro d' k'
    constructor
    · rw [hmain _, hdom, show (("" : String) ++ "_") = "_" from rfl, if_pos (hfull d' k')]
    · rw [hmain _, hdom, show (("" : String) ++ "_") = "_" from rfl]
      rw [if_pos ?_]
      rw [strIncludes_def, expKey_eq_append, String.data_append]
      apply includesChars_append
      rw [← strIncludes_def]
      exact hfull d' k'

/-- Claim C10, witness: with the empty domain, a full key written under a
different domain is removed by `clearDomain()`. -/
theorem claim_C10_witness :
    ((⟨"", true, [("books_t", "1")], []⟩ : LocalitState)).DOMAIN = "" ∧
    Storage.getItem
        (activeStore (localit.clearDomain
          (⟨"", true, [("books_t", "1")], []⟩ : LocalitState) none))
        (getFullKey "books" "t") = none :=
  ⟨rfl, ((claim_C10 ⟨"", true, [("books_t", "1")], []⟩ rfl).2 "books" "t").1⟩

theorem toStorageString_nonstr_eq (v : JSVal) (hv : ∀ s, v ≠ JSVal.str s) :
    toStorageString v = JSON.stringify v := by
  cases v with
  | null => rfl
  | bool b => cases b <;> rfl
  | num m e => rfl
  | str s => exact absurd rfl (hv s)
  | arr vs => rfl
  | obj ms => rfl

/-- Claim C1, counterexample: after `set("k", "0")` (the one-character
string "0"), `get("k")` returns the number 0, not the string "0": a
string whose text is valid JSON is reparsed by `get` and does not
round-trip. -/
theorem claim_C1_counterexample :
    localit.get 0 (localit.set 0 (initState "") "k" (.str "0") none) "k" =
      some (JSVal.num 0 0, localit.set 0 (initState "") "k" (.str "0") none) ∧
    JSVal.num 0 0 ≠ JSVal.str "0" :=
  ⟨rfl, fun h => JSVal.noConfusion h⟩

/-- Claim C1 (amended): for every non-empty key and every
JSON-serializable value — numbers taken in their canonical decimal
representation, the unique one for each JS number — that is not a string
whose text parses as JSON, `set` followed by `get` returns, without
throwing, a value structurally equal to the one stored (nested
arrays/objects, fractional numbers, `false` and `0` included), provided
no stale expiration entry exists for the key; a string that parses as
JSON instead comes back as the parsed value (see the counterexample). -/
theorem claim_C1 (now : Int) (st : LocalitState) (k : String) (v : JSVal) (hk : k ≠ "")
    (hexp : Storage.getItem (activeStore st) (getExpirationKey st.DOMAIN k) = none)
    (hcv : canonV v = true)
    (hv : ∀ s, v = JSVal.str s → JSON.parse s = none) :
    localit.get now (localit.set now st k v none) k =
      some (v, localit.set now st k v none) := by
  rw [localit.set, if_neg hk]
  dsimp only
  have hhd : hasExpirationDate
      (setActiveStore st
        (Storage.setItem (activeStore st) (getFullKey st.DOMAIN k) (toStorageString v)))
      k = false := by
    rw [hasExpirationDate, setActive_DOMAIN, activeStore_setActive, getItem_setItem,
      if_neg (fun he => fullKey_ne_expKey st.DOMAIN k he.symm), hexp]
    rfl
  rw [localit.get, if_neg (show ¬ hasExpirationDate
      (setActiveStore st (Storage.setItem (activeStore st) (getFullKey st.DOMAIN k)
        (toStorageString v))) k = true by rw [hhd]; exact Bool.false_ne_true)]
  dsimp only
  rw [setActive_DOMAIN, activeStore_setActive, getItem_setItem, if_pos rfl]
  by_cases hstr : ∃ s, v = JSVal.str s
  · obtain ⟨s, rfl⟩ := hstr
    rw [show toStorageString (JSVal.str s) = s from rfl]
    dsimp only
    rw [hv s rfl]
  · rw [toStorageString_nonstr_eq v (fun s he => hstr ⟨s, he⟩)]
    dsimp only
    rw [parse_stringify v hcv]

/-- Claim C1, witness: the boolean `true` round-trips through `set` and
`get` on the empty backend. -/
theorem claim_C1_witness :
    ("k" : String) ≠ "" ∧
    Storage.getItem (activeStore (initState ""))
      (getExpirationKey (initState "").DOMAIN "k") = none ∧
    canonV (.bool true) = true ∧
    localit.get 0 (localit.set 0 (initState "") "k" (.bool true) none) "k" =
      some (JSVal.bool true, localit.set 0 (initState "") "k" (.bool true) none) :=
  ⟨by decide, rfl, rfl,
    claim_C1 0 (initState "") "k" (.bool true) (by decide) rfl rfl
      (fun s h => JSVal.noConfusion h)⟩
